import Mathlib

/-!
Verification of the red-black tree implementation of this repository.

The main subject is the recursive variant (red_black_tree_recursion.cpp),
embedded in namespace RBRec.  Nodes hold an int key, an int color
(RED = 0, BLK = 1, DBL = 2) and two children.  The C code uses one shared,
mutable sentinel object (__nil_node) standing for every missing child;
its `color` field is written through child pointers during erase, so the
embedding threads the sentinel's current color (`nilc`) through every
function: reading the color of a nil child yields `nilc`, writing the color
of a nil child updates `nilc`.  The sentinel's key is 0 and its child
pointers refer to itself, exactly as init_nil_node sets them; no operation
ever re-points them (rotations are only reached with a real pivot child).

The iterative variant (red_black_tree.cpp) is embedded in namespace RBIter
for its `rbtree_search` and `rbtree_flip_color`; in that file the per-tree
sentinel is zero-initialized in main, so its key is 0 and its child
pointers are null, which the search model reflects.
-/

namespace RBRec

/-- Color macros of red_black_tree_recursion.cpp. -/
abbrev RBTREE_CLR_RED : Int := 0

/-- BLACK color macro. -/
abbrev RBTREE_CLR_BLK : Int := 1

/-- DOUBLE BLACK color macro. -/
abbrev RBTREE_CLR_DBL : Int := 2

/-- A tree node (struct rbtree_node) or the shared sentinel (`nil`). -/
inductive Tree where
  | nil : Tree
  | node (key : Int) (color : Int) (left : Tree) (right : Tree) : Tree
deriving DecidableEq, Repr

/-- The whole-program state: `struct rbtree` (its root pointer) together
with the current value of the shared sentinel's color field
(`__nil_node.color`). -/
structure St where
  root : Tree
  nilc : Int
deriving DecidableEq, Repr

namespace Tree

/-- Reading `p->key`; the sentinel's key is 0 (init_nil_node). -/
def key : Tree → Int
  | .nil => 0
  | .node k _ _ _ => k

/-- Reading `p->left`; the sentinel's left child is the sentinel itself. -/
def left : Tree → Tree
  | .nil => .nil
  | .node _ _ l _ => l

/-- Reading `p->right`; the sentinel's right child is the sentinel itself. -/
def right : Tree → Tree
  | .nil => .nil
  | .node _ _ _ r => r

/-- Reading `p->color`: a real node yields its stored color, the sentinel
yields the sentinel's current color `nilc`. -/
def color (t : Tree) (nilc : Int) : Int :=
  match t with
  | .nil => nilc
  | .node _ c _ _ => c

/-- Writing `p->color = c`: on a real node, rewrite its color field; on the
sentinel, update the shared `__nil_node.color`.  Returns the node as seen
after the write together with the new sentinel color. -/
def withColor (t : Tree) (c : Int) (nilc : Int) : Tree × Int :=
  match t with
  | .nil => (.nil, c)
  | .node k _ l r => (.node k c l r, nilc)

/-- Writing `p->left = x`.  The program only ever performs this write on a
real node; on the sentinel the only value ever written is the sentinel
itself (a no-op), so the sentinel case keeps `nil` unchanged. -/
def setLeft : Tree → Tree → Tree
  | .nil, _ => .nil
  | .node k c _ r, l => .node k c l r

/-- Writing `p->right = x`; sentinel case as in `setLeft`. -/
def setRight : Tree → Tree → Tree
  | .nil, _ => .nil
  | .node k c l _, r => .node k c l r

end Tree

/-- has_red_child_node: whether either child reads as RED. -/
def has_red_child_node (node : Tree) (nilc : Int) : Bool :=
  node.left.color nilc == RBTREE_CLR_RED || node.right.color nilc == RBTREE_CLR_RED

/-- rbtree_left_rotate.  Every call the program makes has a real pivot
(`up->right` a real node) or is the trivial self-referential sentinel case;
other shapes are never reached, and are modeled as the identity. -/
def rbtree_left_rotate : Tree → Tree
  | .node k c l (.node rk rc rl rr) => .node rk rc (.node k c l rl) rr
  | t => t

/-- rbtree_right_rotate, mirror of `rbtree_left_rotate`. -/
def rbtree_right_rotate : Tree → Tree
  | .node k c (.node lk lc ll lr) r => .node lk lc ll (.node k c lr r)
  | t => t

/-- rbtree_create_node: a fresh RED leaf with sentinel children
(allocation is modeled as always succeeding). -/
def rbtree_create_node (key : Int) : Tree :=
  .node key RBTREE_CLR_RED .nil .nil

/-- The recolor sequence `root->color = RED;
root->left->color = root->right->color = BLK` shared by the color-flip
branch and the post-rotation recolor of rbtree_insert_maintian. -/
def recolorRBB (root : Tree) (nilc : Int) : Tree × Int :=
  match root with
  | .nil =>
      -- all three writes go through the sentinel; the last leaves BLK
      (.nil, RBTREE_CLR_BLK)
  | .node k _ l r =>
      let s1 := l.withColor RBTREE_CLR_BLK nilc
      let s2 := r.withColor RBTREE_CLR_BLK s1.2
      (.node k RBTREE_CLR_RED s1.1 s2.1, s2.2)

/-- Conflict macros of rbtree_insert_maintian. -/
abbrev RBTREE_INSERT_CLT_NONE : Int := 0

/-- Conflict on the left subtree. -/
abbrev RBTREE_INSERT_CLT_LEFT : Int := 1

/-- Conflict on the right subtree. -/
abbrev RBTREE_INSERT_CLT_RIGHT : Int := 2

/-- rbtree_insert_maintian (name as in the source): the insert rebalancer
run at each ancestor on the unwind. -/
def rbtree_insert_maintian (root : Tree) (nilc : Int) : Tree × Int :=
  if !(has_red_child_node root nilc) then (root, nilc)
  else if root.left.color nilc == RBTREE_CLR_RED &&
          root.right.color nilc == RBTREE_CLR_RED then
    recolorRBB root nilc
  else
    let has_red_conflict :=
      if root.left.color nilc == RBTREE_CLR_RED &&
         has_red_child_node root.left nilc then RBTREE_INSERT_CLT_LEFT
      else if root.right.color nilc == RBTREE_CLR_RED &&
              has_red_child_node root.right nilc then RBTREE_INSERT_CLT_RIGHT
      else RBTREE_INSERT_CLT_NONE
    if has_red_conflict == RBTREE_INSERT_CLT_NONE then (root, nilc)
    else
      let root1 :=
        if has_red_conflict == RBTREE_INSERT_CLT_LEFT then
          let root0 :=
            if root.left.right.color nilc == RBTREE_CLR_RED then
              root.setLeft (rbtree_left_rotate root.left)
            else root
          rbtree_right_rotate root0
        else
          let root0 :=
            if root.right.left.color nilc == RBTREE_CLR_RED then
              root.setRight (rbtree_right_rotate root.right)
            else root
          rbtree_left_rotate root0
      recolorRBB root1 nilc

/-- __rbtree_insert: recursive descent, attach a RED leaf, rebalance on
the unwind. -/
def __rbtree_insert (root : Tree) (key : Int) (nilc : Int) : Tree × Int :=
  match root with
  | .nil => (rbtree_create_node key, nilc)
  | .node k c l r =>
      if k == key then (.node k c l r, nilc)
      else if key < k then
        let s := __rbtree_insert l key nilc
        rbtree_insert_maintian (.node k c s.1 r) s.2
      else
        let s := __rbtree_insert r key nilc
        rbtree_insert_maintian (.node k c l s.1) s.2

/-- rbtree_insert: the public insert (non-null tree handle), forcing the
root BLACK afterwards. -/
def rbtree_insert (s : St) (key : Int) : St :=
  let r := __rbtree_insert s.root key s.nilc
  let f := r.1.withColor RBTREE_CLR_BLK r.2
  ⟨f.1, f.2⟩

/-- The cursor loop of __rbtree_find_predecessor:
`while (cursor->right != nil_node) cursor = cursor->right`. -/
def predGo : Tree → Tree
  | .nil => .nil
  | .node k c l .nil => .node k c l .nil
  | .node _ _ _ (.node rk rc rl rr) => predGo (.node rk rc rl rr)

/-- __rbtree_find_predecessor: rightmost node of the left subtree. -/
def __rbtree_find_predecessor (node : Tree) : Tree :=
  predGo node.left

/-- Number of real nodes (spec-side measure; also the termination measure
of the erase rebalancer's embedding). -/
def size : Tree → Nat
  | .nil => 0
  | .node _ _ l r => size l + size r + 1

/-- __rbtree_erase_maintain: the erase rebalancer.  Sequencing of the C
statements is kept, including every color write through possibly-sentinel
child pointers. -/
def __rbtree_erase_maintain (root : Tree) (nilc : Int) : Tree × Int :=
  if h1 : root.left.color nilc ≠ RBTREE_CLR_DBL ∧
          root.right.color nilc ≠ RBTREE_CLR_DBL then
    (root, nilc)
  else if h2 : has_red_child_node root nilc then
    -- case: the double black node's sibling is RED
    let s1 := root.withColor RBTREE_CLR_RED nilc
    if s1.1.left.color s1.2 == RBTREE_CLR_RED then
      let s2 := (rbtree_right_rotate s1.1).withColor RBTREE_CLR_BLK s1.2
      let s3 := __rbtree_erase_maintain s2.1.right s2.2
      (s2.1.setRight s3.1, s3.2)
    else
      let s2 := (rbtree_left_rotate s1.1).withColor RBTREE_CLR_BLK s1.2
      let s3 := __rbtree_erase_maintain s2.1.left s2.2
      (s2.1.setLeft s3.1, s3.2)
  else if (root.left.color nilc == RBTREE_CLR_DBL &&
           !(has_red_child_node root.right nilc)) ||
          (root.right.color nilc == RBTREE_CLR_DBL &&
           !(has_red_child_node root.left nilc)) then
    -- case: BLACK sibling with two non-RED children; push blackness up
    let s1 := root.left.withColor (root.left.color nilc - RBTREE_CLR_BLK) nilc
    let t1 := root.setLeft s1.1
    let s2 := t1.right.withColor (t1.right.color s1.2 - RBTREE_CLR_BLK) s1.2
    let t2 := t1.setRight s2.1
    let s3 := t2.withColor (t2.color s2.2 + RBTREE_CLR_BLK) s2.2
    (s3.1, s3.2)
  else if root.left.color nilc == RBTREE_CLR_DBL then
    -- double black on the left, BLACK sibling on the right with a RED child
    let p1 :=
      if root.right.left.color nilc == RBTREE_CLR_RED then
        let a1 := root.right.withColor RBTREE_CLR_RED nilc
        let t1 := root.setRight a1.1
        let t2 := t1.setRight (rbtree_right_rotate t1.right)
        let a2 := t2.right.withColor RBTREE_CLR_BLK a1.2
        (t2.setRight a2.1, a2.2)
      else (root, nilc)
    let b1 := p1.1.left.withColor (p1.1.left.color p1.2 - RBTREE_CLR_BLK) p1.2
    let t4 := rbtree_left_rotate (p1.1.setLeft b1.1)
    let c1 := t4.withColor (t4.left.color b1.2) b1.2
    let d1 := c1.1.right.withColor RBTREE_CLR_BLK c1.2
    let t5 := c1.1.setRight d1.1
    let e1 := t5.left.withColor RBTREE_CLR_BLK d1.2
    (t5.setLeft e1.1, e1.2)
  else
    -- double black on the right, BLACK sibling on the left with a RED child
    let p1 :=
      if root.left.right.color nilc == RBTREE_CLR_RED then
        let a1 := root.left.withColor RBTREE_CLR_RED nilc
        let t1 := root.setLeft a1.1
        let t2 := t1.setLeft (rbtree_left_rotate t1.left)
        let a2 := t2.left.withColor RBTREE_CLR_BLK a1.2
        (t2.setLeft a2.1, a2.2)
      else (root, nilc)
    let b1 := p1.1.right.withColor (p1.1.right.color p1.2 - RBTREE_CLR_BLK) p1.2
    let t4 := rbtree_right_rotate (p1.1.setRight b1.1)
    let c1 := t4.withColor (t4.right.color b1.2) b1.2
    let d1 := c1.1.right.withColor RBTREE_CLR_BLK c1.2
    let t5 := c1.1.setRight d1.1
    let e1 := t5.left.withColor RBTREE_CLR_BLK d1.2
    (t5.setLeft e1.1, e1.2)
termination_by size root
decreasing_by
  all_goals cases root with
  | nil =>
      exfalso
      simp only [Tree.left, Tree.right, Tree.color, has_red_child_node,
        Bool.or_eq_true, beq_iff_eq, not_and, ne_eq, not_not] at h1 h2
      rcases h2 with h2 | h2 <;> subst h2 <;>
        exact absurd (h1 (by decide)) (by decide)
  | node k c l r =>
      first
      | (cases l with
          | nil =>
              simp [Tree.withColor, Tree.left, Tree.right, rbtree_right_rotate,
                size]
          | node lk lc ll lr =>
              simp [Tree.withColor, Tree.left, Tree.right, rbtree_right_rotate,
                size]
              omega)
      | (cases r with
          | nil =>
              simp [Tree.withColor, Tree.left, Tree.right, rbtree_left_rotate,
                size]
          | node rk rc rl rr =>
              simp [Tree.withColor, Tree.left, Tree.right, rbtree_left_rotate,
                size]
              omega)

/-- __rbtree_erase: recursive descent; splice a degree-≤1 node, adding its
color onto its child (possibly the sentinel), or reduce a degree-2 node via
the in-order predecessor; rebalance on the unwind. -/
def __rbtree_erase (root : Tree) (key : Int) (nilc : Int) : Tree × Int :=
  match root with
  | .nil => (.nil, nilc)
  | .node k c l r =>
      if key < k then
        let s := __rbtree_erase l key nilc
        __rbtree_erase_maintain (.node k c s.1 r) s.2
      else if key > k then
        let s := __rbtree_erase r key nilc
        __rbtree_erase_maintain (.node k c l s.1) s.2
      else
        if l = .nil ∨ r = .nil then
          let child := if l ≠ .nil then l else r
          child.withColor (child.color nilc + c) nilc
        else
          let prev := __rbtree_find_predecessor (.node k c l r)
          let s := __rbtree_erase l prev.key nilc
          __rbtree_erase_maintain (.node prev.key c s.1 r) s.2

/-- rbtree_erase: the public erase (non-null tree handle), forcing the root
BLACK afterwards. -/
def rbtree_erase (s : St) (key : Int) : St :=
  let r := __rbtree_erase s.root key s.nilc
  let f := r.1.withColor RBTREE_CLR_BLK r.2
  ⟨f.1, f.2⟩

/-- __inorder_traversal collected into a list (the C appends into a
vector in left-self-right order). -/
def inorder : Tree → List Int
  | .nil => []
  | .node k _ l r => inorder l ++ k :: inorder r

/-- One public operation of the Tree Store call surface. -/
inductive Op where
  | ins (key : Int) : Op
  | del (key : Int) : Op
deriving DecidableEq, Repr

/-- Apply one public operation. -/
def applyOp (s : St) : Op → St
  | .ins k => rbtree_insert s k
  | .del k => rbtree_erase s k

/-- Run a sequence of public operations from the initial program state:
empty tree (`tree.root = nil_node`) and a BLACK sentinel
(init_nil_node). -/
def run (ops : List Op) : St :=
  ops.foldl applyOp ⟨.nil, RBTREE_CLR_BLK⟩

/-- Whether a key `x` is present after applying `ops`, given its presence
`b` beforehand: the last insert/erase of `x` wins (spec-side measure). -/
def memAfter (x : Int) : List Op → Bool → Bool
  | [], b => b
  | .ins k :: rest, b => memAfter x rest (if x = k then true else b)
  | .del k :: rest, b => memAfter x rest (if x = k then false else b)

/-! ### Observation functions (measures used to state the properties) -/

/-- Height in edges-to-sentinel counting nodes: spec-side measure
(`tree height` of the spec), not a function of the C source. -/
def height : Tree → Nat
  | .nil => 0
  | .node _ _ l r => 1 + max (height l) (height r)

/-- Whether the root of a subtree is a RED real node. -/
def redRoot : Tree → Bool
  | .nil => false
  | .node _ c _ _ => c == RBTREE_CLR_RED

/-- Black height counting the sentinel as one black node and counting a
color-`c` node `c.toNat` times (so a DOUBLE_BLACK marker counts twice);
measured along the leftmost path. -/
def bH : Tree → Nat
  | .nil => 1
  | .node _ c l _ => bH l + c.toNat

/-- Every node's two subtrees have equal black height (`bH`): spec
invariant 4. -/
def bhOk : Tree → Bool
  | .nil => true
  | .node _ _ l r => bhOk l && bhOk r && (bH l == bH r)

/-- Every stored color is RED or BLACK (no DOUBLE_BLACK marker left). -/
def dblFree : Tree → Bool
  | .nil => true
  | .node _ c l r =>
      (c == RBTREE_CLR_RED || c == RBTREE_CLR_BLK) && dblFree l && dblFree r

/-- No RED node has a RED child: spec invariant 3. -/
def invc : Tree → Bool
  | .nil => true
  | .node _ c l r =>
      invc l && invc r &&
      (!(c == RBTREE_CLR_RED) || (!(redRoot l) && !(redRoot r)))

/-- No node has two RED children (the `红黑黑` normal form the insert
rebalancer forces, per the comments in the source). -/
def no4 : Tree → Bool
  | .nil => true
  | .node _ _ l r => no4 l && no4 r && !(redRoot l && redRoot r)

/-- Insertion of a key into a sorted key list: the in-order effect of
`insert` (present keys are kept once). -/
def addKey (k : Int) : List Int → List Int
  | [] => [k]
  | x :: xs => if k < x then k :: x :: xs else if k = x then x :: xs else x :: addKey k xs

/-- A structurally well-formed red-black subtree: colors are RED/BLACK, no
RED-RED edge, no node with two RED children, equal black heights. -/
def validTree (t : Tree) : Prop :=
  dblFree t = true ∧ invc t = true ∧ no4 t = true ∧ bhOk t = true

/-- Shape of a subtree returned by `__rbtree_insert` on a RED root: the
root is still RED, everything below the root is a valid coloring. -/
def RC (t : Tree) : Prop :=
  redRoot t = true ∧ dblFree t = true ∧ no4 t = true ∧ bhOk t = true ∧
  invc t.left = true ∧ invc t.right = true

/-- Description of the one double-black child produced while erasing:
either the shared sentinel carrying color 2, or a real node whose root
color field is 2 with valid subtrees. -/
def dblChild (d : Tree) (n : Int) : Prop :=
  (d = Tree.nil ∧ n = 2) ∨
  (n = 1 ∧ ∃ dk dl dr, d = Tree.node dk RBTREE_CLR_DBL dl dr ∧
    validTree dl ∧ validTree dr ∧
    ¬(redRoot dl = true ∧ redRoot dr = true) ∧ bH dl = bH dr)

/-- Conceptual black height of a possibly double-black erase result: the
double-black sentinel stands for two black levels. -/
def cbh : Tree → Nat
  | .nil => 2
  | .node _ c l _ => bH l + c.toNat

/-- Postcondition shape of the erase rebalancer: a real node of total
black height `H` whose root color is `c` or `c + 1` and whose subtrees are
valid. -/
def postOK (t2 : Tree) (H : Nat) (c : Int) : Prop :=
  ∃ k2 c2 l2 r2, t2 = Tree.node k2 c2 l2 r2 ∧
    (c2 = c ∨ c2 = c + 1) ∧
    validTree l2 ∧ validTree r2 ∧
    (c2 = RBTREE_CLR_RED → redRoot l2 = false ∧ redRoot r2 = false) ∧
    ¬(redRoot l2 = true ∧ redRoot r2 = true) ∧
    bH l2 = bH r2 ∧ bH l2 + c2.toNat = H

/-- Outcome of one recursive erase activation started on a subtree of
black height `B` and root redness `rr`: either a clean valid subtree of
unchanged black height, the double-black sentinel (a spliced BLACK leaf),
or a real node carrying the DOUBLE_BLACK marker at its root, one black
level short. -/
def EOut (B : Nat) (rr : Bool) (t2 : Tree) (n2 : Int) : Prop :=
  (n2 = 1 ∧ validTree t2 ∧ bH t2 = B ∧
    (rr = false → redRoot t2 = false)) ∨
  (t2 = .nil ∧ n2 = 2 ∧ B = 2) ∨
  (n2 = 1 ∧ ∃ k2 l2 r2, t2 = Tree.node k2 RBTREE_CLR_DBL l2 r2 ∧
    validTree l2 ∧ validTree r2 ∧
    ¬(redRoot l2 = true ∧ redRoot r2 = true) ∧
    bH l2 = bH r2 ∧ bH l2 + 2 = B)

/-- The states reachable through the public interface: BLACK sentinel,
valid coloring, non-RED root, strictly increasing in-order keys. -/
def TopValid (s : St) : Prop :=
  s.nilc = RBTREE_CLR_BLK ∧ validTree s.root ∧ redRoot s.root = false ∧
  (inorder s.root).Pairwise (· < ·)

/-- Fuel-indexed variant of `__rbtree_erase`: one fuel unit is consumed
per recursive activation; `none` means the fuel did not cover the
recursion depth. -/
def __rbtree_erase_fuel : Nat → Tree → Int → Int → Option (Tree × Int)
  | 0, _, _, _ => none
  | fuel + 1, root, key, nilc =>
      match root with
      | .nil => some (.nil, nilc)
      | .node k c l r =>
          if key < k then
            match __rbtree_erase_fuel fuel l key nilc with
            | none => none
            | some s => some (__rbtree_erase_maintain (.node k c s.1 r) s.2)
          else if key > k then
            match __rbtree_erase_fuel fuel r key nilc with
            | none => none
            | some s => some (__rbtree_erase_maintain (.node k c l s.1) s.2)
          else
            if l = .nil ∨ r = .nil then
              let child := if l ≠ .nil then l else r
              some (child.withColor (child.color nilc + c) nilc)
            else
              let prev := __rbtree_find_predecessor (.node k c l r)
              match __rbtree_erase_fuel fuel l prev.key nilc with
              | none => none
              | some s => some (__rbtree_erase_maintain (.node prev.key c s.1 r) s.2)

end RBRec

namespace RBIter

/-- rbtree_search of red_black_tree.cpp on the node graph the search
visits: `nil` is the per-tree sentinel (key 0, null children, as
zero-initialized in main).  The result models the returned pointer:
`none` is nullptr, `some t` is a pointer to `t` (possibly the sentinel). -/
def search_go (key : Int) : RBRec.Tree → Option RBRec.Tree
  | .nil =>
      -- cursor is the sentinel: its key reads 0, its children are null
      if key < 0 then none
      else if key > 0 then none
      else some .nil
  | .node k c l r =>
      if key < k then search_go key l
      else if key > k then search_go key r
      else some (.node k c l r)

/-- rbtree_search: nullptr for a null handle or an empty tree, else the
cursor loop. -/
def rbtree_search (root : RBRec.Tree) (key : Int) : Option RBRec.Tree :=
  if root = .nil then none
  else search_go key root

/-- rbtree_flip_color of red_black_tree.cpp, threading the per-tree
sentinel color as in the recursive variant.  Note the source writes
`node->entry.right->entry.color = RBTREE_NODE_CLR_RED`. -/
def rbtree_flip_color (node : RBRec.Tree) (nilc : Int) : RBRec.Tree × Int :=
  match node with
  | .nil => (.nil, nilc)   -- the C null check rejects only nullptr, not reached for real calls
  | .node k _ l r =>
      let s1 := l.withColor 1 nilc
      let s2 := r.withColor 0 s1.2
      (.node k 0 s1.1 s2.1, s2.2)

end RBIter

/-! ## Lemmas -/

namespace RBRec

@[simp] lemma key_nil : Tree.key .nil = 0 := rfl

@[simp] lemma key_node : Tree.key (.node k c l r) = k := rfl

@[simp] lemma left_nil : Tree.left .nil = .nil := rfl

@[simp] lemma left_node : Tree.left (.node k c l r) = l := rfl

@[simp] lemma right_nil : Tree.right .nil = .nil := rfl

@[simp] lemma right_node : Tree.right (.node k c l r) = r := rfl

@[simp] lemma color_nil (n : Int) : Tree.color .nil n = n := rfl

@[simp] lemma color_node (n : Int) : Tree.color (.node k c l r) n = c := rfl

@[simp] lemma withColor_nil (c n : Int) : Tree.withColor .nil c n = (.nil, c) := rfl

@[simp] lemma withColor_node (c n : Int) :
    Tree.withColor (.node k c0 l r) c n = (.node k c l r, n) := rfl

@[simp] lemma setLeft_nil (x : Tree) : Tree.setLeft .nil x = .nil := rfl

@[simp] lemma setLeft_node (x : Tree) :
    Tree.setLeft (.node k c l r) x = .node k c x r := rfl

@[simp] lemma setRight_nil (x : Tree) : Tree.setRight .nil x = .nil := rfl

@[simp] lemma setRight_node (x : Tree) :
    Tree.setRight (.node k c l r) x = .node k c l x := rfl

@[simp] lemma inorder_nil : inorder .nil = [] := rfl

@[simp] lemma inorder_node :
    inorder (.node k c l r) = inorder l ++ k :: inorder r := rfl

@[simp] lemma size_nil : size .nil = 0 := rfl

@[simp] lemma size_node : size (.node k c l r) = size l + size r + 1 := rfl

@[simp] lemma bH_nil : bH .nil = 1 := rfl

@[simp] lemma bH_node : bH (.node k c l r) = bH l + c.toNat := rfl

@[simp] lemma height_nil : height .nil = 0 := rfl

@[simp] lemma height_node :
    height (.node k c l r) = 1 + max (height l) (height r) := rfl

@[simp] lemma redRoot_nil : redRoot .nil = false := rfl

@[simp] lemma redRoot_node : redRoot (.node k c l r) = (c == 0) := rfl

@[simp] lemma toNat_red : (RBTREE_CLR_RED).toNat = 0 := rfl

@[simp] lemma toNat_blk : (RBTREE_CLR_BLK).toNat = 1 := rfl

@[simp] lemma toNat_dbl : (RBTREE_CLR_DBL).toNat = 2 := rfl

@[simp] lemma toNat_two : (2 : Int).toNat = 2 := rfl

@[simp] lemma int_two_sub_one : (2 - 1 : Int) = 1 := rfl

@[simp] lemma int_one_sub_one : (1 - 1 : Int) = 0 := rfl

@[simp] lemma clt_left_bne_none :
    (RBTREE_INSERT_CLT_LEFT == RBTREE_INSERT_CLT_NONE) = false := rfl

@[simp] lemma clt_right_bne_none :
    (RBTREE_INSERT_CLT_RIGHT == RBTREE_INSERT_CLT_NONE) = false := rfl

@[simp] lemma clt_left_beq_left :
    (RBTREE_INSERT_CLT_LEFT == RBTREE_INSERT_CLT_LEFT) = true := rfl

@[simp] lemma clt_right_bne_left :
    (RBTREE_INSERT_CLT_RIGHT == RBTREE_INSERT_CLT_LEFT) = false := rfl

lemma bH_pos (t : Tree) : 1 ≤ bH t := by
  cases t with
  | nil => simp
  | node k c l r => simp; have := bH_pos l; omega

@[simp] lemma dblFree_nil : dblFree .nil = true := rfl

lemma dblFree_node_iff :
    dblFree (.node k c l r) = true ↔
      (c = RBTREE_CLR_RED ∨ c = RBTREE_CLR_BLK) ∧
      dblFree l = true ∧ dblFree r = true := by
  simp [dblFree, and_assoc]

@[simp] lemma invc_nil : invc .nil = true := rfl

lemma invc_node_iff :
    invc (.node k c l r) = true ↔
      invc l = true ∧ invc r = true ∧
      (c = RBTREE_CLR_RED → redRoot l = false ∧ redRoot r = false) := by
  simp only [invc, Bool.and_eq_true, Bool.or_eq_true, Bool.not_eq_true',
    beq_eq_false_iff_ne, ne_eq, beq_iff_eq]
  constructor
  · rintro ⟨⟨h1, h2⟩, h3⟩
    refine ⟨h1, h2, fun hc => ?_⟩
    rcases h3 with h | h
    · exact absurd hc h
    · exact h
  · rintro ⟨h1, h2, h3⟩
    refine ⟨⟨h1, h2⟩, ?_⟩
    by_cases hc : c = RBTREE_CLR_RED
    · exact Or.inr (h3 hc)
    · exact Or.inl hc

@[simp] lemma no4_nil : no4 .nil = true := rfl

lemma no4_node_iff :
    no4 (.node k c l r) = true ↔
      no4 l = true ∧ no4 r = true ∧
      ¬(redRoot l = true ∧ redRoot r = true) := by
  simp only [no4, Bool.and_eq_true, Bool.not_eq_true']
  constructor
  · rintro ⟨⟨h1, h2⟩, h3⟩
    refine ⟨h1, h2, fun ⟨ha, hb⟩ => by simp [ha, hb] at h3⟩
  · rintro ⟨h1, h2, h3⟩
    refine ⟨⟨h1, h2⟩, ?_⟩
    cases hl : redRoot l <;> cases hr : redRoot r <;> simp_all

@[simp] lemma bhOk_nil : bhOk .nil = true := rfl

lemma bhOk_node_iff :
    bhOk (.node k c l r) = true ↔
      bhOk l = true ∧ bhOk r = true ∧ bH l = bH r := by
  simp [bhOk, and_assoc]

lemma validTree_nil : validTree .nil := by
  refine ⟨rfl, rfl, rfl, rfl⟩

lemma validTree_node_iff :
    validTree (.node k c l r) ↔
      validTree l ∧ validTree r ∧
      (c = RBTREE_CLR_RED ∨ c = RBTREE_CLR_BLK) ∧
      (c = RBTREE_CLR_RED → redRoot l = false ∧ redRoot r = false) ∧
      ¬(redRoot l = true ∧ redRoot r = true) ∧ bH l = bH r := by
  unfold validTree
  rw [dblFree_node_iff, invc_node_iff, no4_node_iff, bhOk_node_iff]
  tauto

/-! ### Sorted-list helpers -/

lemma sorted_decomp {A B : List Int} {k : Int}
    (h : (A ++ k :: B).Pairwise (· < ·)) :
    A.Pairwise (· < ·) ∧ B.Pairwise (· < ·) ∧
    (∀ x ∈ A, x < k) ∧ (∀ y ∈ B, k < y) := by
  rw [List.pairwise_append] at h
  obtain ⟨h1, h2, h3⟩ := h
  rw [List.pairwise_cons] at h2
  exact ⟨h1, h2.2, fun x hx => h3 x hx k (by simp), h2.1⟩

lemma mem_addKey {y k : Int} {l : List Int} :
    y ∈ addKey k l ↔ y = k ∨ y ∈ l := by
  induction l with
  | nil => simp [addKey]
  | cons x xs ih =>
      by_cases h1 : k < x
      · simp [addKey, h1]
      · by_cases h2 : k = x
        · subst h2; simp [addKey, h1]
        · simp [addKey, h1, h2, ih]
          tauto

lemma addKey_ne_nil (k : Int) (l : List Int) : addKey k l ≠ [] := by
  cases l with
  | nil => simp [addKey]
  | cons x xs =>
      simp only [addKey]
      split
      · simp
      · split <;> simp

lemma addKey_append_lt {A B : List Int} {k k0 : Int} (hk : k < k0) :
    addKey k (A ++ k0 :: B) = addKey k A ++ k0 :: B := by
  induction A with
  | nil => simp [addKey, hk]
  | cons x xs ih =>
      by_cases h1 : k < x
      · simp [addKey, h1]
      · by_cases h2 : k = x
        · simp [addKey, h1, h2]
        · simp [addKey, h1, h2, ih]

lemma addKey_append_gt {A B : List Int} {k k0 : Int} (hk : k0 < k)
    (hA : ∀ x ∈ A, x < k) :
    addKey k (A ++ k0 :: B) = A ++ k0 :: addKey k B := by
  induction A with
  | nil => simp [addKey, not_lt.mpr hk.le, hk.ne.symm]
  | cons x xs ih =>
      have hx : x < k := hA x (by simp)
      simp only [List.cons_append, addKey, not_lt.mpr hx.le, if_false,
        hx.ne.symm, ite_false, List.append_eq]
      rw [ih (fun y hy => hA y (by simp [hy]))]

lemma addKey_self {A B : List Int} {k : Int} (hA : ∀ x ∈ A, x < k) :
    addKey k (A ++ k :: B) = A ++ k :: B := by
  induction A with
  | nil => simp [addKey]
  | cons x xs ih =>
      have hx : x < k := hA x (by simp)
      simp only [List.cons_append, addKey, not_lt.mpr hx.le, if_false,
        hx.ne.symm, ite_false, List.append_eq]
      rw [ih (fun y hy => hA y (by simp [hy]))]

lemma addKey_sorted {l : List Int} (k : Int) (h : l.Pairwise (· < ·)) :
    (addKey k l).Pairwise (· < ·) := by
  induction l with
  | nil => simp [addKey]
  | cons x xs ih =>
      rw [List.pairwise_cons] at h
      by_cases h1 : k < x
      · simp only [addKey, h1, if_true]
        rw [List.pairwise_cons]
        refine ⟨?_, by rw [List.pairwise_cons]; exact h⟩
        intro y hy
        rcases List.mem_cons.mp hy with rfl | hy
        · exact h1
        · exact h1.trans (h.1 y hy)
      · by_cases h2 : k = x
        · subst h2
          have he : addKey k (k :: xs) = k :: xs := by simp [addKey]
          rw [he, List.pairwise_cons]; exact h
        · simp only [addKey, h1, if_false, h2, ite_false]
          rw [List.pairwise_cons]
          refine ⟨?_, ih h.2⟩
          intro y hy
          rcases mem_addKey.mp hy with rfl | hy
          · omega
          · exact h.1 y hy

lemma addKey_perm {l : List Int} {k : Int} (h : k ∉ l) :
    (addKey k l).Perm (k :: l) := by
  induction l with
  | nil => simp [addKey]
  | cons x xs ih =>
      have hkx : k ≠ x := fun hv => h (by simp [hv])
      by_cases h1 : k < x
      · simp [addKey, h1]
      · simp only [addKey, h1, if_false, hkx, ite_false]
        have hp := ih (fun hv => h (by simp [hv]))
        exact (hp.cons x).trans (List.Perm.swap k x xs)

lemma filter_not_mem_eq {A : List Int} {k : Int} (h : k ∉ A) :
    A.filter (fun x => x != k) = A := by
  rw [List.filter_eq_self]
  intro a ha
  simp only [bne_iff_ne, ne_eq]
  exact fun hv => h (hv ▸ ha)

lemma filter_mid_self {A B : List Int} {k : Int} (hA : k ∉ A) (hB : k ∉ B) :
    (A ++ k :: B).filter (fun x => x != k) = A ++ B := by
  rw [List.filter_append, filter_not_mem_eq hA]
  simp only [List.filter_cons, bne_self_eq_false, Bool.false_eq_true,
    if_false, filter_not_mem_eq hB]

lemma filter_mid_left {A B : List Int} {k k0 : Int} (hk : k ≠ k0)
    (hB : k ∉ B) :
    (A ++ k0 :: B).filter (fun x => x != k) =
      A.filter (fun x => x != k) ++ k0 :: B := by
  rw [List.filter_append]
  congr 1
  simp only [List.filter_cons]
  rw [if_pos (by simp [bne_iff_ne]; omega), filter_not_mem_eq hB]

lemma filter_mid_right {A B : List Int} {k k0 : Int} (hk : k ≠ k0)
    (hA : k ∉ A) :
    (A ++ k0 :: B).filter (fun x => x != k) =
      A ++ k0 :: B.filter (fun x => x != k) := by
  rw [List.filter_append, filter_not_mem_eq hA]
  congr 1
  simp only [List.filter_cons]
  rw [if_pos (by simp [bne_iff_ne]; omega)]

/-! ### Predecessor lemmas -/

lemma predGo_last (t : Tree) (h : t ≠ .nil) :
    ∃ A, inorder t = A ++ [(predGo t).key] ∧ (predGo t).right = .nil := by
  induction t with
  | nil => exact absurd rfl h
  | node k c l r ihl ihr =>
      cases r with
      | nil => exact ⟨inorder l, by simp [predGo], by simp [predGo]⟩
      | node rk rc rl rr =>
          obtain ⟨A, hA, hR⟩ := ihr (by simp)
          refine ⟨inorder l ++ k :: A, ?_, ?_⟩
          · simp only [predGo, inorder_node, hA]
            simp
          · simpa [predGo] using hR

lemma predGo_ne_nil (t : Tree) (h : t ≠ .nil) : predGo t ≠ .nil := by
  induction t with
  | nil => exact absurd rfl h
  | node k c l r ihl ihr =>
      cases r with
      | nil => simp [predGo]
      | node rk rc rl rr => simpa [predGo] using ihr (by simp)

/-! ### Color reading facts -/

lemma color_ne_dbl_of_dblFree {t : Tree} (h : dblFree t = true) :
    t.color 1 ≠ RBTREE_CLR_DBL := by
  cases t with
  | nil => simp
  | node k c l r =>
      rw [dblFree_node_iff] at h
      obtain ⟨hc, -, -⟩ := h
      simp only [color_node]
      rcases hc with rfl | rfl <;> decide

lemma color_eq_red_iff {t : Tree} {n : Int} (hn : n ≠ 0) :
    t.color n = RBTREE_CLR_RED ↔ redRoot t = true := by
  cases t with
  | nil => simpa using hn
  | node k c l r => simp

lemma color_beq_red {t : Tree} {n : Int} (hn : n ≠ 0) :
    (t.color n == RBTREE_CLR_RED) = redRoot t := by
  cases t with
  | nil =>
      simp only [color_nil, redRoot_nil, beq_eq_false_iff_ne, ne_eq]
      exact hn
  | node k c l r => rfl

lemma has_red_child_eq {t : Tree} {n : Int} (hn : n ≠ 0) :
    has_red_child_node t n = (redRoot t.left || redRoot t.right) := by
  unfold has_red_child_node
  rw [color_beq_red hn, color_beq_red hn]

/-! ### Erase rebalancer: no double black means no change -/

lemma erase_maintain_noop (root : Tree) (nilc : Int)
    (h : root.left.color nilc ≠ RBTREE_CLR_DBL ∧
         root.right.color nilc ≠ RBTREE_CLR_DBL) :
    __rbtree_erase_maintain root nilc = (root, nilc) := by
  unfold __rbtree_erase_maintain
  exact dif_pos h

lemma erase_absent (t : Tree) (k : Int) (hmem : k ∉ inorder t)
    (hd : dblFree t = true) :
    __rbtree_erase t k 1 = (t, 1) := by
  induction t with
  | nil => simp [__rbtree_erase]
  | node k0 c l r ihl ihr =>
      rw [dblFree_node_iff] at hd
      obtain ⟨hc, hdl, hdr⟩ := hd
      have hk0 : k ≠ k0 := by
        intro hv; exact hmem (by simp [hv])
      have hml : k ∉ inorder l := fun hv => hmem (by simp [hv])
      have hmr : k ∉ inorder r := fun hv => hmem (by simp [hv])
      by_cases h1 : k < k0
      · simp only [__rbtree_erase, if_pos h1, ihl hml hdl]
        exact erase_maintain_noop _ _
          ⟨color_ne_dbl_of_dblFree hdl, color_ne_dbl_of_dblFree hdr⟩
      · have h2 : k > k0 := by omega
        simp only [__rbtree_erase, if_neg h1, if_pos h2, ihr hmr hdr]
        exact erase_maintain_noop _ _
          ⟨color_ne_dbl_of_dblFree hdl, color_ne_dbl_of_dblFree hdr⟩

/-! ### Insert rebalancer -/

lemma vrc_parts {t : Tree} (h : validTree t ∨ RC t) :
    dblFree t = true ∧ no4 t = true ∧ bhOk t = true ∧
    invc t.left = true ∧ invc t.right = true := by
  rcases h with h | h
  · obtain ⟨h1, h2, h3, h4⟩ := h
    refine ⟨h1, h3, h4, ?_, ?_⟩ <;>
      cases t with
      | nil => simp
      | node k c l r =>
          rw [invc_node_iff] at h2
          simp [h2.1, h2.2.1]
  · exact ⟨h.2.1, h.2.2.1, h.2.2.2.1, h.2.2.2.2.1, h.2.2.2.2.2⟩

lemma color_beq_red_false {t : Tree} (h : redRoot t = false) :
    (t.color 1 == RBTREE_CLR_RED) = false := by
  rw [color_beq_red (by omega)]
  exact h

lemma ins_maintain_inert (k c : Int) (l r : Tree)
    (hil : invc l = true) (hir : invc r = true)
    (hnb : ¬(redRoot l = true ∧ redRoot r = true)) :
    rbtree_insert_maintian (.node k c l r) 1 = (.node k c l r, 1) := by
  have hnored : ∀ t : Tree, invc t = true → redRoot t = true →
      has_red_child_node t 1 = false := by
    intro t hi hred
    rw [has_red_child_eq (by omega)]
    cases t with
    | nil => simp
    | node tk tc tl tr =>
        simp only [redRoot_node, beq_iff_eq] at hred
        have := invc_node_iff.mp hi
        simp [(this.2.2 hred).1, (this.2.2 hred).2]
  by_cases hLred : redRoot l = true
  · have hRred : redRoot r = false := by
      cases hw : redRoot r with
      | false => rfl
      | true => exact absurd ⟨hLred, hw⟩ hnb
    have hclt : (Tree.color l 1 == RBTREE_CLR_RED) = true := by
      rw [color_beq_red (by omega)]; exact hLred
    have hcrf : (Tree.color r 1 == RBTREE_CLR_RED) = false :=
      color_beq_red_false hRred
    have e0 : has_red_child_node (.node k c l r) 1 = true := by
      rw [has_red_child_eq (by omega)]; simp [hLred]
    unfold rbtree_insert_maintian
    simp only [left_node, right_node, e0, hclt, hcrf, hnored l hil hLred,
      Bool.not_true, Bool.false_eq_true, if_false, Bool.false_and,
      Bool.and_false, Bool.true_and, Bool.and_true, if_true, ite_true,
      ite_false, clt_right_bne_none, clt_left_bne_none, beq_self_eq_true]
  · by_cases hRred : redRoot r = true
    · have hclf : (Tree.color l 1 == RBTREE_CLR_RED) = false :=
        color_beq_red_false (by simpa using hLred)
      have hcrt : (Tree.color r 1 == RBTREE_CLR_RED) = true := by
        rw [color_beq_red (by omega)]; exact hRred
      have e0 : has_red_child_node (.node k c l r) 1 = true := by
        rw [has_red_child_eq (by omega)]; simp [hRred]
      unfold rbtree_insert_maintian
      simp only [left_node, right_node, e0, hclf, hcrt, hnored r hir hRred,
        Bool.not_true, Bool.false_eq_true, if_false, Bool.false_and,
        Bool.and_false, Bool.true_and, Bool.and_true, if_true, ite_true,
        ite_false, clt_right_bne_none, clt_left_bne_none, beq_self_eq_true]
    · have e0 : has_red_child_node (.node k c l r) 1 = false := by
        rw [has_red_child_eq (by omega)]
        simp [by simpa using hLred, by simpa using hRred]
      unfold rbtree_insert_maintian
      simp only [e0, Bool.not_false, if_true, ite_true]

lemma ins_maintain_black_left (k : Int) (l r : Tree)
    (hbal : bH l = bH r) (hr : validTree r) (hl : validTree l ∨ RC l) :
    (rbtree_insert_maintian (.node k RBTREE_CLR_BLK l r) 1).2 = 1 ∧
    inorder (rbtree_insert_maintian (.node k RBTREE_CLR_BLK l r) 1).1 =
      inorder l ++ k :: inorder r ∧
    bH (rbtree_insert_maintian (.node k RBTREE_CLR_BLK l r) 1).1 = bH l + 1 ∧
    validTree (rbtree_insert_maintian (.node k RBTREE_CLR_BLK l r) 1).1 := by
  obtain ⟨hdl, hnl, hbl, hill, hilr⟩ := vrc_parts hl
  obtain ⟨hdr, hir, hnr, hbkr⟩ := hr
  by_cases hLred : redRoot l = true
  · cases l with
    | nil => simp [redRoot] at hLred
    | node lk lc ll lr =>
        simp only [redRoot_node, beq_iff_eq] at hLred
        subst hLred
        simp only [left_node, right_node] at hill hilr
        have hdlp := dblFree_node_iff.mp hdl
        have hnlp := no4_node_iff.mp hnl
        have hblp := bhOk_node_iff.mp hbl
        by_cases hRred : redRoot r = true
        · -- color flip
          cases r with
          | nil => simp [redRoot] at hRred
          | node rk rc rl rr =>
              simp only [redRoot_node, beq_iff_eq] at hRred
              subst hRred
              have hdrp := dblFree_node_iff.mp hdr
              have hnrp := no4_node_iff.mp hnr
              have hbkrp := bhOk_node_iff.mp hbkr
              have hirp := invc_node_iff.mp hir
              unfold rbtree_insert_maintian
              simp only [has_red_child_node, left_node, right_node, color_node,
                beq_self_eq_true, Bool.or_true, Bool.true_or, Bool.not_true,
                Bool.false_eq_true, if_false, Bool.and_self, if_true, ite_true,
                recolorRBB, withColor_node]
              refine ⟨by simp, by simp, by simp only [bH_node, toNat_red, toNat_blk, toNat_dbl, Int.toNat_zero, Int.toNat_one] at hbal ⊢ <;> omega,
                ?_⟩
              rw [validTree_node_iff, validTree_node_iff, validTree_node_iff]
              refine ⟨⟨⟨hdlp.2.1, hill, hnlp.1, hblp.1⟩,
                      ⟨hdlp.2.2, hilr, hnlp.2.1, hblp.2.1⟩,
                      Or.inr rfl, by intro h; exact absurd h (by decide),
                      hnlp.2.2, hblp.2.2⟩,
                     ⟨⟨hdrp.2.1, hirp.1, hnrp.1, hbkrp.1⟩,
                      ⟨hdrp.2.2, hirp.2.1, hnrp.2.1, hbkrp.2.1⟩,
                      Or.inr rfl, by intro h; exact absurd h (by decide),
                      hnrp.2.2, hbkrp.2.2⟩,
                     Or.inl rfl, by intro h; simp, by simp,
                     by simp only [bH_node, toNat_red, toNat_blk, toNat_dbl, Int.toNat_zero, Int.toNat_one] at hbal ⊢ <;> omega⟩
        · have hcr : (Tree.color r 1 == RBTREE_CLR_RED) = false :=
            color_beq_red_false (by simpa using hRred)
          by_cases hconf : has_red_child_node (.node lk RBTREE_CLR_RED ll lr) 1 = true
          · rw [has_red_child_eq (by omega)] at hconf
            simp only [left_node, right_node, Bool.or_eq_true] at hconf
            by_cases hlrred : redRoot lr = true
            · -- LR: straighten with a small left rotation, then big right
              cases lr with
              | nil => simp [redRoot] at hlrred
              | node mk mc m1 m2 =>
                  simp only [redRoot_node, beq_iff_eq] at hlrred
                  subst hlrred
                  have hllb : redRoot ll = false := by
                    cases hwl : redRoot ll with
                    | false => rfl
                    | true => exact absurd ⟨hwl, rfl⟩ hnlp.2.2
                  have hdl2 := dblFree_node_iff.mp hdlp.2.2
                  have hnl2 := no4_node_iff.mp hnlp.2.1
                  have hbl2 := bhOk_node_iff.mp hblp.2.1
                  have hilr2 := invc_node_iff.mp hilr
                  unfold rbtree_insert_maintian
                  simp only [has_red_child_node, left_node, right_node,
                    color_node, beq_self_eq_true, Bool.or_true, Bool.true_or,
                    Bool.not_true, Bool.false_eq_true, if_false, hcr,
                    Bool.and_true, Bool.and_false, Bool.true_and,
                    Bool.false_and, Bool.or_false, if_true, ite_true,
                    ite_false, rbtree_left_rotate, rbtree_right_rotate,
                    Tree.setLeft, recolorRBB, withColor_node,
                    clt_left_bne_none, clt_left_beq_left]
                  refine ⟨by simp, by simp,
                    by simp only [bH_node, toNat_red, toNat_blk, toNat_dbl, Int.toNat_zero, Int.toNat_one] at hbl2 ⊢ <;> omega, ?_⟩
                  rw [validTree_node_iff, validTree_node_iff,
                    validTree_node_iff]
                  refine ⟨⟨⟨hdlp.2.1, hill, hnlp.1, hblp.1⟩,
                          ⟨hdl2.2.1, hilr2.1, hnl2.1, hbl2.1⟩,
                          Or.inr rfl, by intro h; exact absurd h (by decide),
                          by simp [hllb],
                          by simp only [bH_node, toNat_red, toNat_blk, toNat_dbl, Int.toNat_zero, Int.toNat_one] at hblp ⊢ <;> omega⟩,
                         ⟨⟨hdl2.2.2, hilr2.2.1, hnl2.2.1, hbl2.2.1⟩,
                          ⟨hdr, hir, hnr, hbkr⟩,
                          Or.inr rfl, by intro h; exact absurd h (by decide),
                          by simp [(hilr2.2.2 rfl).2],
                          by simp only [bH_node, toNat_red, toNat_blk, toNat_dbl, Int.toNat_zero, Int.toNat_one] at hblp hbl2 hbal ⊢ <;> omega⟩,
                         Or.inl rfl, by intro h; simp, by simp,
                         by simp only [bH_node, toNat_red, toNat_blk, toNat_dbl, Int.toNat_zero, Int.toNat_one] at hblp hbl2 hbal ⊢ <;> omega⟩
            · -- LL: a single big right rotation
              have hllred : redRoot ll = true := by
                rcases hconf with h | h
                · exact h
                · exact absurd h (by simp [hlrred])
              cases ll with
              | nil => simp [redRoot] at hllred
              | node ak ac a1 a2 =>
                  simp only [redRoot_node, beq_iff_eq] at hllred
                  subst hllred
                  have hclr : (Tree.color lr 1 == RBTREE_CLR_RED) = false :=
                    color_beq_red_false (by simpa using hlrred)
                  have hdl2 := dblFree_node_iff.mp hdlp.2.1
                  have hnl2 := no4_node_iff.mp hnlp.1
                  have hbl2 := bhOk_node_iff.mp hblp.1
                  have hill2 := invc_node_iff.mp hill
                  unfold rbtree_insert_maintian
                  simp only [has_red_child_node, left_node, right_node,
                    color_node, beq_self_eq_true, Bool.or_true, Bool.true_or,
                    Bool.not_true, Bool.false_eq_true, if_false, hcr, hclr,
                    Bool.and_true, Bool.and_false, Bool.true_and,
                    Bool.false_and, Bool.or_false, if_true,
                    ite_true, ite_false, rbtree_left_rotate,
                    rbtree_right_rotate, Tree.setLeft, recolorRBB,
                    withColor_node, clt_left_bne_none, clt_left_beq_left]
                  refine ⟨by simp, by simp,
                    by simp only [bH_node, toNat_red, toNat_blk, toNat_dbl, Int.toNat_zero, Int.toNat_one] at hbl2 ⊢ <;> omega, ?_⟩
                  rw [validTree_node_iff, validTree_node_iff,
                    validTree_node_iff]
                  refine ⟨⟨⟨hdl2.2.1, hill2.1, hnl2.1, hbl2.1⟩,
                          ⟨hdl2.2.2, hill2.2.1, hnl2.2.1, hbl2.2.1⟩,
                          Or.inr rfl, by intro h; exact absurd h (by decide),
                          hnl2.2.2, hbl2.2.2⟩,
                         ⟨⟨hdlp.2.2, hilr, hnlp.2.1, hblp.2.1⟩,
                          ⟨hdr, hir, hnr, hbkr⟩,
                          Or.inr rfl, by intro h; exact absurd h (by decide),
                          by simp [hlrred],
                          by simp only [bH_node, toNat_red, toNat_blk, toNat_dbl, Int.toNat_zero, Int.toNat_one] at hblp hbl2 hbal ⊢ <;> omega⟩,
                         Or.inl rfl, by intro h; simp, by simp,
                         by simp only [bH_node, toNat_red, toNat_blk, toNat_dbl, Int.toNat_zero, Int.toNat_one] at hblp hbl2 hbal ⊢ <;> omega⟩
          · -- RED left child without a RED grandchild: no conflict, no change
            simp only [Bool.not_eq_true] at hconf
            have hconf2 := hconf
            rw [has_red_child_eq (by omega)] at hconf2
            simp only [left_node, right_node, Bool.or_eq_false_iff] at hconf2
            unfold rbtree_insert_maintian
            simp only [has_red_child_node, left_node, right_node, color_node,
              beq_self_eq_true, Bool.true_or, Bool.not_true,
              Bool.false_eq_true, if_false, hcr, Bool.and_true,
              Bool.and_false, Bool.true_and, Bool.false_and, Bool.or_false,
              if_true, ite_true, ite_false] at hconf ⊢
            rw [hconf]
            simp only [Bool.false_eq_true, if_false, Bool.and_self,
              beq_self_eq_true, if_true, ite_true]
            refine ⟨by simp, by simp, by simp, ?_⟩
            rw [validTree_node_iff, validTree_node_iff]
            exact ⟨⟨⟨hdlp.2.1, hill, hnlp.1, hblp.1⟩,
                   ⟨hdlp.2.2, hilr, hnlp.2.1, hblp.2.1⟩,
                   Or.inl rfl, fun _ => ⟨hconf2.1, hconf2.2⟩, hnlp.2.2,
                   hblp.2.2⟩,
                  ⟨hdr, hir, hnr, hbkr⟩, Or.inr rfl,
                  by intro h; exact absurd h (by decide),
                  by simp [by simpa using hRred], hbal⟩
  · -- left child not RED
    simp only [Bool.not_eq_true] at hLred
    have hvl : validTree l := by
      rcases hl with h | h
      · exact h
      · rw [h.1] at hLred; exact absurd hLred (by simp)
    have hcl : (Tree.color l 1 == RBTREE_CLR_RED) = false :=
      color_beq_red_false hLred
    by_cases hRred : redRoot r = true
    · -- RED sibling, nothing to do (its children are BLACK by invc)
      have hconfr : has_red_child_node r 1 = false := by
        rw [has_red_child_eq (by omega)]
        cases r with
        | nil => simp
        | node rk rc rl rr =>
            simp only [redRoot_node, beq_iff_eq] at hRred
            have := invc_node_iff.mp hir
            simp [(this.2.2 hRred).1, (this.2.2 hRred).2]
      have hcrt : (Tree.color r 1 == RBTREE_CLR_RED) = true := by
        rw [color_beq_red (by omega)]; exact hRred
      have e0 : has_red_child_node (.node k RBTREE_CLR_BLK l r) 1 = true := by
        rw [has_red_child_eq (by omega)]
        simp [hRred]
      unfold rbtree_insert_maintian
      simp only [left_node, right_node, e0, hcl, hcrt, hconfr,
        Bool.not_true, Bool.false_eq_true, if_false, Bool.false_and,
        Bool.and_false, Bool.true_and, Bool.and_true, if_true, ite_true,
        ite_false, clt_right_bne_none, clt_left_bne_none, beq_self_eq_true]
      refine ⟨by simp, by simp, by simp, ?_⟩
      rw [validTree_node_iff]
      exact ⟨hvl, ⟨hdr, hir, hnr, hbkr⟩, Or.inr rfl,
        by intro h; exact absurd h (by decide), by simp [hLred], hbal⟩
    · -- no RED child at all: first branch returns unchanged
      have e0 : has_red_child_node (.node k RBTREE_CLR_BLK l r) 1 = false := by
        rw [has_red_child_eq (by omega)]
        simp [hLred, by simpa using hRred]
      unfold rbtree_insert_maintian
      simp only [e0, Bool.not_false, if_true, ite_true]
      refine ⟨by simp, by simp, by simp, ?_⟩
      rw [validTree_node_iff]
      exact ⟨hvl, ⟨hdr, hir, hnr, hbkr⟩, Or.inr rfl,
        by intro h; exact absurd h (by decide), by simp [hLred], hbal⟩

lemma ins_maintain_black_right (k : Int) (l r : Tree)
    (hbal : bH l = bH r) (hl : validTree l) (hr : validTree r ∨ RC r) :
    (rbtree_insert_maintian (.node k RBTREE_CLR_BLK l r) 1).2 = 1 ∧
    inorder (rbtree_insert_maintian (.node k RBTREE_CLR_BLK l r) 1).1 =
      inorder l ++ k :: inorder r ∧
    bH (rbtree_insert_maintian (.node k RBTREE_CLR_BLK l r) 1).1 = bH l + 1 ∧
    validTree (rbtree_insert_maintian (.node k RBTREE_CLR_BLK l r) 1).1 := by
  obtain ⟨hdr, hnr, hbr, hirl, hirr⟩ := vrc_parts hr
  obtain ⟨hdl, hil, hnl, hbkl⟩ := hl
  by_cases hRred : redRoot r = true
  · cases r with
    | nil => simp [redRoot] at hRred
    | node rk rc rl rr =>
        simp only [redRoot_node, beq_iff_eq] at hRred
        subst hRred
        simp only [left_node, right_node] at hirl hirr
        have hdrp := dblFree_node_iff.mp hdr
        have hnrp := no4_node_iff.mp hnr
        have hbrp := bhOk_node_iff.mp hbr
        by_cases hLred : redRoot l = true
        · -- color flip
          cases l with
          | nil => simp [redRoot] at hLred
          | node lk lc ll lr =>
              simp only [redRoot_node, beq_iff_eq] at hLred
              subst hLred
              have hdlp := dblFree_node_iff.mp hdl
              have hnlp := no4_node_iff.mp hnl
              have hbklp := bhOk_node_iff.mp hbkl
              have hilp := invc_node_iff.mp hil
              unfold rbtree_insert_maintian
              simp only [has_red_child_node, left_node, right_node, color_node,
                beq_self_eq_true, Bool.or_true, Bool.true_or, Bool.not_true,
                Bool.false_eq_true, if_false, Bool.and_self, if_true, ite_true,
                recolorRBB, withColor_node]
              refine ⟨by simp, by simp,
                by simp only [bH_node, toNat_red, toNat_blk, Int.toNat_zero,
                     Int.toNat_one] at hbal ⊢ <;> omega, ?_⟩
              rw [validTree_node_iff, validTree_node_iff, validTree_node_iff]
              refine ⟨⟨⟨hdlp.2.1, hilp.1, hnlp.1, hbklp.1⟩,
                      ⟨hdlp.2.2, hilp.2.1, hnlp.2.1, hbklp.2.1⟩,
                      Or.inr rfl, by intro h; exact absurd h (by decide),
                      hnlp.2.2, hbklp.2.2⟩,
                     ⟨⟨hdrp.2.1, hirl, hnrp.1, hbrp.1⟩,
                      ⟨hdrp.2.2, hirr, hnrp.2.1, hbrp.2.1⟩,
                      Or.inr rfl, by intro h; exact absurd h (by decide),
                      hnrp.2.2, hbrp.2.2⟩,
                     Or.inl rfl, by intro h; simp, by simp,
                     by simp only [bH_node, toNat_red, toNat_blk,
                          Int.toNat_zero, Int.toNat_one] at hbal ⊢ <;> omega⟩
        · have hcl : (Tree.color l 1 == RBTREE_CLR_RED) = false :=
            color_beq_red_false (by simpa using hLred)
          by_cases hconf : has_red_child_node (.node rk RBTREE_CLR_RED rl rr) 1 = true
          · rw [has_red_child_eq (by omega)] at hconf
            simp only [left_node, right_node, Bool.or_eq_true] at hconf
            by_cases hrlred : redRoot rl = true
            · -- RL: straighten with a small right rotation, then big left
              cases rl with
              | nil => simp [redRoot] at hrlred
              | node mk mc m1 m2 =>
                  simp only [redRoot_node, beq_iff_eq] at hrlred
                  subst hrlred
                  have hrrb : redRoot rr = false := by
                    cases hwl : redRoot rr with
                    | false => rfl
                    | true => exact absurd ⟨rfl, hwl⟩ hnrp.2.2
                  have hdr2 := dblFree_node_iff.mp hdrp.2.1
                  have hnr2 := no4_node_iff.mp hnrp.1
                  have hbr2 := bhOk_node_iff.mp hbrp.1
                  have hirl2 := invc_node_iff.mp hirl
                  unfold rbtree_insert_maintian
                  simp only [has_red_child_node, left_node, right_node,
                    color_node, beq_self_eq_true, Bool.or_true, Bool.true_or,
                    Bool.not_true, Bool.false_eq_true, if_false, hcl,
                    Bool.and_true, Bool.and_false, Bool.true_and,
                    Bool.false_and, Bool.or_false, if_true, ite_true,
                    ite_false, rbtree_left_rotate, rbtree_right_rotate,
                    Tree.setRight, recolorRBB, withColor_node,
                    clt_right_bne_none, clt_right_bne_left]
                  refine ⟨by simp, by simp,
                    by simp only [bH_node, toNat_red, toNat_blk,
                         Int.toNat_zero, Int.toNat_one] at hbr2 ⊢ <;> omega, ?_⟩
                  rw [validTree_node_iff, validTree_node_iff,
                    validTree_node_iff]
                  refine ⟨⟨⟨hdl, hil, hnl, hbkl⟩,
                          ⟨hdr2.2.1, hirl2.1, hnr2.1, hbr2.1⟩,
                          Or.inr rfl, by intro h; exact absurd h (by decide),
                          by simp [hLred],
                          by simp only [bH_node, toNat_red, toNat_blk,
                               Int.toNat_zero, Int.toNat_one] at hbal ⊢ <;>
                            omega⟩,
                         ⟨⟨hdr2.2.2, hirl2.2.1, hnr2.2.1, hbr2.2.1⟩,
                          ⟨hdrp.2.2, hirr, hnrp.2.1, hbrp.2.1⟩,
                          Or.inr rfl, by intro h; exact absurd h (by decide),
                          by simp [hrrb],
                          by simp only [bH_node, toNat_red, toNat_blk,
                               Int.toNat_zero, Int.toNat_one] at hbrp hbr2 ⊢ <;>
                            omega⟩,
                         Or.inl rfl, by intro h; simp, by simp,
                         by simp only [bH_node, toNat_red, toNat_blk,
                              Int.toNat_zero, Int.toNat_one] at hbal hbrp hbr2
                              ⊢ <;> omega⟩
            · -- RR: a single big left rotation
              have hrrred : redRoot rr = true := by
                rcases hconf with h | h
                · exact absurd h (by simp [hrlred])
                · exact h
              cases rr with
              | nil => simp [redRoot] at hrrred
              | node bk bc b1 b2 =>
                  simp only [redRoot_node, beq_iff_eq] at hrrred
                  subst hrrred
                  have hcrl : (Tree.color rl 1 == RBTREE_CLR_RED) = false :=
                    color_beq_red_false (by simpa using hrlred)
                  have hdr2 := dblFree_node_iff.mp hdrp.2.2
                  have hnr2 := no4_node_iff.mp hnrp.2.1
                  have hbr2 := bhOk_node_iff.mp hbrp.2.1
                  have hirr2 := invc_node_iff.mp hirr
                  unfold rbtree_insert_maintian
                  simp only [has_red_child_node, left_node, right_node,
                    color_node, beq_self_eq_true, Bool.or_true, Bool.true_or,
                    Bool.not_true, Bool.false_eq_true, if_false, hcl, hcrl,
                    Bool.and_true, Bool.and_false, Bool.true_and,
                    Bool.false_and, Bool.or_false, Bool.false_or, if_true,
                    ite_true, ite_false, rbtree_left_rotate,
                    rbtree_right_rotate, Tree.setRight, recolorRBB,
                    withColor_node, clt_right_bne_none, clt_right_bne_left]
                  refine ⟨by simp, by simp,
                    by simp only [bH_node, toNat_red, toNat_blk,
                         Int.toNat_zero, Int.toNat_one] at hbal ⊢ <;> omega, ?_⟩
                  rw [validTree_node_iff, validTree_node_iff,
                    validTree_node_iff]
                  refine ⟨⟨⟨hdl, hil, hnl, hbkl⟩,
                          ⟨hdrp.2.1, hirl, hnrp.1, hbrp.1⟩,
                          Or.inr rfl, by intro h; exact absurd h (by decide),
                          by simp [hLred],
                          by simp only [bH_node, toNat_red, toNat_blk,
                               Int.toNat_zero, Int.toNat_one] at hbal ⊢ <;>
                            omega⟩,
                         ⟨⟨hdr2.2.1, hirr2.1, hnr2.1, hbr2.1⟩,
                          ⟨hdr2.2.2, hirr2.2.1, hnr2.2.1, hbr2.2.1⟩,
                          Or.inr rfl, by intro h; exact absurd h (by decide),
                          hnr2.2.2, hbr2.2.2⟩,
                         Or.inl rfl, by intro h; simp, by simp,
                         by simp only [bH_node, toNat_red, toNat_blk,
                              Int.toNat_zero, Int.toNat_one] at hbal hbrp hbr2
                              ⊢ <;> omega⟩
          · -- RED right child without RED grandchild: no conflict, no change
            simp only [Bool.not_eq_true] at hconf
            have hconf2 := hconf
            rw [has_red_child_eq (by omega)] at hconf2
            simp only [left_node, right_node, Bool.or_eq_false_iff] at hconf2
            unfold rbtree_insert_maintian
            simp only [has_red_child_node, left_node, right_node, color_node,
              beq_self_eq_true, Bool.or_true, Bool.not_true,
              Bool.false_eq_true, if_false, hcl, Bool.and_true,
              Bool.and_false, Bool.true_and, Bool.false_and, Bool.or_false,
              if_true, ite_true, ite_false] at hconf ⊢
            rw [hconf]
            simp only [Bool.false_eq_true, if_false, Bool.and_self,
              beq_self_eq_true, if_true, ite_true]
            refine ⟨by simp, by simp, by simp, ?_⟩
            rw [validTree_node_iff, validTree_node_iff]
            exact ⟨⟨hdl, hil, hnl, hbkl⟩,
                   ⟨⟨hdrp.2.1, hirl, hnrp.1, hbrp.1⟩,
                    ⟨hdrp.2.2, hirr, hnrp.2.1, hbrp.2.1⟩,
                    Or.inl rfl, fun _ => ⟨hconf2.1, hconf2.2⟩, hnrp.2.2,
                    hbrp.2.2⟩,
                   Or.inr rfl, by intro h; exact absurd h (by decide),
                   by simp [by simpa using hLred], hbal⟩
  · -- right child not RED
    simp only [Bool.not_eq_true] at hRred
    have hvr : validTree r := by
      rcases hr with h | h
      · exact h
      · rw [h.1] at hRred; exact absurd hRred (by simp)
    have hcr : (Tree.color r 1 == RBTREE_CLR_RED) = false :=
      color_beq_red_false hRred
    by_cases hLred : redRoot l = true
    · -- RED sibling on the left, nothing to do
      have hconfl : has_red_child_node l 1 = false := by
        rw [has_red_child_eq (by omega)]
        cases l with
        | nil => simp
        | node lk lc ll lr =>
            simp only [redRoot_node, beq_iff_eq] at hLred
            have := invc_node_iff.mp hil
            simp [(this.2.2 hLred).1, (this.2.2 hLred).2]
      have hclt : (Tree.color l 1 == RBTREE_CLR_RED) = true := by
        rw [color_beq_red (by omega)]; exact hLred
      have e0 : has_red_child_node (.node k RBTREE_CLR_BLK l r) 1 = true := by
        rw [has_red_child_eq (by omega)]
        simp [hLred]
      unfold rbtree_insert_maintian
      simp only [left_node, right_node, e0, hclt, hcr, hconfl,
        Bool.not_true, Bool.false_eq_true, if_false, Bool.false_and,
        Bool.and_false, Bool.true_and, Bool.and_true, if_true, ite_true,
        ite_false, clt_right_bne_none, clt_left_bne_none, beq_self_eq_true]
      refine ⟨by simp, by simp, by simp, ?_⟩
      rw [validTree_node_iff]
      exact ⟨⟨hdl, hil, hnl, hbkl⟩, hvr, Or.inr rfl,
        by intro h; exact absurd h (by decide), by simp [hRred], hbal⟩
    · -- no RED child at all: first branch returns unchanged
      have e0 : has_red_child_node (.node k RBTREE_CLR_BLK l r) 1 = false := by
        rw [has_red_child_eq (by omega)]
        simp [hRred, by simpa using hLred]
      unfold rbtree_insert_maintian
      simp only [e0, Bool.not_false, if_true, ite_true]
      refine ⟨by simp, by simp, by simp, ?_⟩
      rw [validTree_node_iff]
      exact ⟨⟨hdl, hil, hnl, hbkl⟩, hvr, Or.inr rfl,
        by intro h; exact absurd h (by decide),
        by simp [by simpa using hLred], hbal⟩

/-- Full specification of `__rbtree_insert` on a valid subtree: the
sentinel stays BLACK, the in-order list gains the key, the black height is
unchanged, and the result is valid (with a possibly RED root when the
input root was RED). -/
lemma insert_go_spec (t : Tree) (kk : Int) (hv : validTree t)
    (hs : (inorder t).Pairwise (· < ·)) :
    (__rbtree_insert t kk 1).2 = 1 ∧
    inorder (__rbtree_insert t kk 1).1 = addKey kk (inorder t) ∧
    bH (__rbtree_insert t kk 1).1 = bH t ∧
    (redRoot t = false → validTree (__rbtree_insert t kk 1).1) ∧
    (redRoot t = true → RC (__rbtree_insert t kk 1).1) := by
  induction t with
  | nil =>
      simp only [__rbtree_insert, rbtree_create_node]
      refine ⟨trivial, by simp [addKey], by simp, ?_, by simp⟩
      intro _
      rw [validTree_node_iff]
      exact ⟨validTree_nil, validTree_nil, Or.inl rfl, by simp, by simp, rfl⟩
  | node k c l r ihl ihr =>
      obtain ⟨hd0, hi0, hn0, hb0⟩ := hv
      obtain ⟨hvl, hvr, hc, himp, hnb, hbal⟩ :=
        validTree_node_iff.mp ⟨hd0, hi0, hn0, hb0⟩
      simp only [inorder_node] at hs
      obtain ⟨hsl, hsr, hlt, hgt⟩ := sorted_decomp hs
      by_cases heq : k = kk
      · subst heq
        simp only [__rbtree_insert, beq_self_eq_true, if_true, ite_true]
        refine ⟨trivial, ?_, trivial, fun _ => ⟨hd0, hi0, hn0, hb0⟩,
          fun hred => ?_⟩
        · rw [inorder_node]
          exact (addKey_self hlt).symm
        · exact ⟨hred, hd0, hn0, hb0,
            by simpa using (invc_node_iff.mp hi0).1,
            by simpa using (invc_node_iff.mp hi0).2.1⟩
      · by_cases hlt2 : kk < k
        · -- descend left
          obtain ⟨ih1, ih2, ih3, ih4, ih5⟩ := ihl hvl hsl
          have hbody : __rbtree_insert (.node k c l r) kk 1 =
              rbtree_insert_maintian
                (.node k c (__rbtree_insert l kk 1).1 r)
                (__rbtree_insert l kk 1).2 := by
            simp only [__rbtree_insert]
            rw [if_neg (by simp [heq]), if_pos hlt2]
          rw [hbody, ih1]
          rcases hc with hc0 | hc1
          · -- RED root: both children are BLACK, the rebalancer is inert
            subst hc0
            have hlb : redRoot l = false := (himp rfl).1
            have hrb : redRoot r = false := (himp rfl).2
            have hvs : validTree (__rbtree_insert l kk 1).1 := ih4 hlb
            rw [ins_maintain_inert k RBTREE_CLR_RED (__rbtree_insert l kk 1).1
              r hvs.2.1 hvr.2.1 (by simp [hrb])]
            refine ⟨rfl, ?_, by simp [ih3], fun h => by simp at h,
              fun _ => ?_⟩
            · simp only [inorder_node, ih2]
              exact (addKey_append_lt hlt2).symm
            · refine ⟨by simp, ?_, ?_, ?_, by simpa using hvs.2.1,
                by simpa using hvr.2.1⟩
              · rw [dblFree_node_iff]
                exact ⟨Or.inl rfl, hvs.1, hvr.1⟩
              · rw [no4_node_iff]
                exact ⟨hvs.2.2.1, hvr.2.2.1, by simp [hrb]⟩
              · rw [bhOk_node_iff]
                exact ⟨hvs.2.2.2, hvr.2.2.2, by rw [ih3]; exact hbal⟩
          · -- BLACK root
            subst hc1
            have hml := ins_maintain_black_left k (__rbtree_insert l kk 1).1 r
              (by rw [ih3]; exact hbal) hvr
              (by cases hred : redRoot l with
                  | false => exact Or.inl (ih4 hred)
                  | true => exact Or.inr (ih5 hred))
            refine ⟨hml.1, ?_, ?_, fun _ => hml.2.2.2, fun h => by simp at h⟩
            · rw [hml.2.1, ih2, inorder_node]
              exact (addKey_append_lt hlt2).symm
            · rw [hml.2.2.1, ih3]
              simp
        · -- descend right
          have hgt2 : k < kk := by
            rcases lt_trichotomy k kk with h | h | h
            · exact h
            · exact absurd h heq
            · exact absurd h hlt2
          obtain ⟨ih1, ih2, ih3, ih4, ih5⟩ := ihr hvr hsr
          have hbody : __rbtree_insert (.node k c l r) kk 1 =
              rbtree_insert_maintian
                (.node k c l (__rbtree_insert r kk 1).1)
                (__rbtree_insert r kk 1).2 := by
            simp only [__rbtree_insert]
            rw [if_neg (by simp [heq]), if_neg (by omega)]
          have hAlt : ∀ x ∈ inorder l, x < kk :=
            fun x hx => lt_trans (hlt x hx) hgt2
          rw [hbody, ih1]
          rcases hc with hc0 | hc1
          · subst hc0
            have hlb : redRoot l = false := (himp rfl).1
            have hrb : redRoot r = false := (himp rfl).2
            have hvs : validTree (__rbtree_insert r kk 1).1 := ih4 hrb
            rw [ins_maintain_inert k RBTREE_CLR_RED l
              (__rbtree_insert r kk 1).1 hvl.2.1 hvs.2.1 (by simp [hlb])]
            refine ⟨rfl, ?_, by simp, fun h => by simp at h, fun _ => ?_⟩
            · simp only [inorder_node, ih2]
              exact (addKey_append_gt hgt2 hAlt).symm
            · refine ⟨by simp, ?_, ?_, ?_, by simpa using hvl.2.1,
                by simpa using hvs.2.1⟩
              · rw [dblFree_node_iff]
                exact ⟨Or.inl rfl, hvl.1, hvs.1⟩
              · rw [no4_node_iff]
                exact ⟨hvl.2.2.1, hvs.2.2.1, by simp [hlb]⟩
              · rw [bhOk_node_iff]
                exact ⟨hvl.2.2.2, hvs.2.2.2, by rw [ih3]; exact hbal⟩
          · subst hc1
            have hml := ins_maintain_black_right k l (__rbtree_insert r kk 1).1
              (by rw [ih3]; exact hbal) hvl
              (by cases hred : redRoot r with
                  | false => exact Or.inl (ih4 hred)
                  | true => exact Or.inr (ih5 hred))
            refine ⟨hml.1, ?_, ?_, fun _ => hml.2.2.2, fun h => by simp at h⟩
            · rw [hml.2.1, ih2, inorder_node]
              exact (addKey_append_gt hgt2 hAlt).symm
            · rw [hml.2.2.1]
              simp

/-- The public insert keeps the reachable-state invariant and adds the key
to the in-order sequence. -/
lemma insert_public_spec (st : St) (k : Int) (h : TopValid st) :
    TopValid (rbtree_insert st k) ∧
    inorder (rbtree_insert st k).root = addKey k (inorder st.root) := by
  obtain ⟨hn, hv, hredf, hsor⟩ := h
  obtain ⟨h1, h2, h3, h4, -⟩ := insert_go_spec st.root k hv hsor
  have hv2 := h4 hredf
  cases he : (__rbtree_insert st.root k 1).1 with
  | nil =>
      exfalso
      rw [he] at h2
      exact addKey_ne_nil k (inorder st.root) h2.symm
  | node k2 c2 l2 r2 =>
      rw [he] at h2 hv2
      have hbk : (RBTREE_CLR_BLK : Int) = 1 := rfl
      simp only [rbtree_insert, hn, hbk, h1, he, withColor_node]
      obtain ⟨hvl2, hvr2, -, -, hnb2, hbh2⟩ := validTree_node_iff.mp hv2
      refine ⟨⟨rfl, ?_, by simp, ?_⟩, ?_⟩
      · rw [validTree_node_iff]
        exact ⟨hvl2, hvr2, Or.inr rfl,
          by intro hx; exact absurd hx (by decide), hnb2, hbh2⟩
      · rw [show inorder (Tree.node k2 RBTREE_CLR_BLK l2 r2) =
            inorder (Tree.node k2 c2 l2 r2) from rfl, h2]
        exact addKey_sorted k hsor
      · rw [show inorder (Tree.node k2 RBTREE_CLR_BLK l2 r2) =
            inorder (Tree.node k2 c2 l2 r2) from rfl]
        exact h2

/-- Inserting a key that is already present leaves the whole recursion
inert: every node on the search path is returned unchanged, and the
rebalancer never fires on a valid tree. -/
lemma insert_present_id (t : Tree) (k : Int) (hv : validTree t)
    (hs : (inorder t).Pairwise (· < ·)) (hmem : k ∈ inorder t) :
    __rbtree_insert t k 1 = (t, 1) := by
  induction t with
  | nil => simp at hmem
  | node k0 c l r ihl ihr =>
      obtain ⟨hvl, hvr, hc, himp, hnb, hbal⟩ := validTree_node_iff.mp hv
      simp only [inorder_node] at hs
      obtain ⟨hsl, hsr, hlt, hgt⟩ := sorted_decomp hs
      by_cases heq : k0 = k
      · simp only [__rbtree_insert, heq, beq_self_eq_true, if_true, ite_true]
      · have hm2 : k ∈ inorder l ∨ k ∈ inorder r := by
          simp only [inorder_node, List.mem_append, List.mem_cons] at hmem
          rcases hmem with h | h | h
          · exact Or.inl h
          · exact absurd h.symm heq
          · exact Or.inr h
        obtain ⟨hi2l, hi2r⟩ : invc l = true ∧ invc r = true := ⟨hvl.2.1, hvr.2.1⟩
        by_cases hlt2 : k < k0
        · have hml : k ∈ inorder l := by
            rcases hm2 with h | h
            · exact h
            · exact absurd (hgt k h) (by omega)
          simp only [__rbtree_insert]
          rw [if_neg (by simp [heq]), if_pos hlt2, ihl hvl hsl hml]
          exact ins_maintain_inert k0 c l r hi2l hi2r hnb
        · have hgt2 : k0 < k := by
            rcases lt_trichotomy k0 k with h | h | h
            · exact h
            · exact absurd h heq
            · exact absurd h hlt2
          have hmr : k ∈ inorder r := by
            rcases hm2 with h | h
            · exact absurd (hlt k h) (by omega)
            · exact h
          simp only [__rbtree_insert]
          rw [if_neg (by simp [heq]), if_neg (by omega), ihr hvr hsr hmr]
          exact ins_maintain_inert k0 c l r hi2l hi2r hnb

/-- Public version: inserting a present key is an exact no-op on the
whole program state. -/
lemma insert_present_public (st : St) (k : Int) (h : TopValid st)
    (hmem : k ∈ inorder st.root) : rbtree_insert st k = st := by
  obtain ⟨hn, hv, hredf, hsor⟩ := h
  have hid := insert_present_id st.root k hv hsor hmem
  cases st with
  | mk root nilc =>
      simp only at hn hv hredf hsor hmem hid
      subst hn
      cases root with
      | nil => simp at hmem
      | node k2 c2 l2 r2 =>
          have hc2 : c2 = 1 := by
            obtain ⟨-, -, hc, -, -, -⟩ := validTree_node_iff.mp hv
            simp only [redRoot_node] at hredf
            rcases hc with h | h
            · rw [h] at hredf; simp at hredf
            · exact h
          subst hc2
          simp only [rbtree_insert, hid, withColor_node]

/-! ### Erase rebalancer case analysis -/

lemma cbh_ge_two {d : Tree} {n : Int} (hd : dblChild d n) : 2 ≤ cbh d := by
  rcases hd with ⟨rfl, -⟩ | ⟨-, dk, dl, dr, rfl, -, -, -, -⟩
  · simp [cbh]
  · simp only [cbh, toNat_dbl]
    omega

lemma dbl_left_color {d : Tree} {n : Int} (hd : dblChild d n) :
    d.color n = RBTREE_CLR_DBL := by
  rcases hd with ⟨rfl, rfl⟩ | ⟨-, dk, dl, dr, rfl, -, -, -, -⟩ <;> rfl

lemma dbl_not_red {d : Tree} {n : Int} (hd : dblChild d n) :
    redRoot d = false := by
  rcases hd with ⟨rfl, -⟩ | ⟨-, dk, dl, dr, rfl, -, -, -, -⟩ <;> simp

lemma dbl_n_cases {d : Tree} {n : Int} (hd : dblChild d n) : n = 1 ∨ n = 2 := by
  rcases hd with ⟨-, rfl⟩ | ⟨rfl, -⟩
  · exact Or.inr rfl
  · exact Or.inl rfl

/-- The black sibling cases of `__rbtree_erase_maintain` (double black on
the left): push blackness up, or rotate on a RED nephew. -/
lemma erase_maintain_sib_black_left (k c : Int) (l r : Tree) (n : Int)
    (hc : c = 0 ∨ c = 1) (hd : dblChild l n) (hr : validTree r)
    (hb : cbh l = bH r) (hsr : redRoot r = false) :
    (__rbtree_erase_maintain (.node k c l r) n).2 = 1 ∧
    inorder (__rbtree_erase_maintain (.node k c l r) n).1 =
      inorder (Tree.node k c l r) ∧
    postOK (__rbtree_erase_maintain (.node k c l r) n).1
      (cbh l + c.toNat) c := by
  have hn0 : n ≠ 0 := by rcases dbl_n_cases hd with rfl | rfl <;> decide
  have hrge : 2 ≤ bH r := hb ▸ cbh_ge_two hd
  cases r with
  | nil => simp at hrge
  | node rk rc rl rr =>
      obtain ⟨hvrl, hvrr, hrc, hrimp, hrnb, hrbal⟩ := validTree_node_iff.mp hr
      have hrc1 : rc = 1 := by
        simp only [redRoot_node] at hsr
        rcases hrc with h | h
        · rw [h] at hsr; simp at hsr
        · exact h
      subst hrc1
      -- shared branch-condition facts
      have hg1 : ¬((Tree.node k c l (Tree.node rk 1 rl rr)).left.color n ≠
            RBTREE_CLR_DBL ∧
          (Tree.node k c l (Tree.node rk 1 rl rr)).right.color n ≠
            RBTREE_CLR_DBL) := by
        intro hx
        exact hx.1 (by simpa using dbl_left_color hd)
      have hg2 : ¬(has_red_child_node (Tree.node k c l (Tree.node rk 1 rl rr))
          n = true) := by
        rw [has_red_child_eq hn0]
        simp [dbl_not_red hd]
      have hlc2 : (Tree.color l n == RBTREE_CLR_DBL) = true := by
        rw [beq_iff_eq]; exact dbl_left_color hd
      have hvac : ¬(c + 1 = RBTREE_CLR_RED) := by
        rcases hc with rfl | rfl <;> decide
      by_cases hnored : has_red_child_node (Tree.node rk 1 rl rr) n = false
      · -- case B: push blackness up
        rw [has_red_child_eq hn0] at hnored
        simp only [left_node, right_node, Bool.or_eq_false_iff] at hnored
        have hg3 : ((Tree.node k c l (Tree.node rk 1 rl rr)).left.color n ==
              RBTREE_CLR_DBL &&
            !has_red_child_node (Tree.node k c l (Tree.node rk 1 rl rr)).right
              n ||
            ((Tree.node k c l (Tree.node rk 1 rl rr)).right.color n ==
              RBTREE_CLR_DBL &&
            !has_red_child_node (Tree.node k c l (Tree.node rk 1 rl rr)).left
              n)) = true := by
          simp only [left_node, right_node]
          rw [hlc2]
          rw [has_red_child_eq hn0]
          simp [hnored.1, hnored.2]
        unfold __rbtree_erase_maintain
        rw [dif_neg hg1, dif_neg hg2, if_pos hg3]
        rcases hd with ⟨rfl, rfl⟩ | ⟨rfl, dk, dl, dr, rfl, hvdl, hvdr, hnbd,
          hbhd⟩
        · -- the double black child is the sentinel
          simp only [left_node, right_node, color_nil, color_node,
            withColor_nil, withColor_node, setLeft_node, setRight_node,
            Tree.setLeft, Tree.setRight, RBTREE_CLR_BLK, int_two_sub_one,
            int_one_sub_one]
          refine ⟨by decide, by simp, ?_⟩
          refine ⟨k, c + 1, .nil, .node rk 0 rl rr, rfl,
            Or.inr rfl, validTree_nil, ?_, fun hx => absurd hx hvac,
            by simp, ?_, ?_⟩
          · rw [validTree_node_iff]
            exact ⟨hvrl, hvrr, Or.inl rfl,
              fun _ => ⟨hnored.1, hnored.2⟩, hrnb, hrbal⟩
          · simp only [cbh, bH_node, bH_nil, toNat_blk, toNat_red, toNat_dbl,
              Int.toNat_zero, Int.toNat_one, toNat_two] at hb ⊢ <;>
              omega
          · simp only [bH_nil, cbh]
            omega
        · -- the double black child is a real node
          simp only [left_node, right_node, color_nil, color_node,
            withColor_nil, withColor_node, setLeft_node, setRight_node,
            Tree.setLeft, Tree.setRight, RBTREE_CLR_BLK, RBTREE_CLR_DBL,
            int_two_sub_one, int_one_sub_one]
          refine ⟨by decide, by simp, ?_⟩
          refine ⟨k, c + 1, .node dk 1 dl dr,
            .node rk 0 rl rr, rfl, Or.inr rfl, ?_, ?_,
            fun hx => absurd hx hvac, by simp, ?_, ?_⟩
          · rw [validTree_node_iff]
            exact ⟨hvdl, hvdr, Or.inr rfl,
              by intro hx; exact absurd hx (by decide), hnbd, hbhd⟩
          · rw [validTree_node_iff]
            exact ⟨hvrl, hvrr, Or.inl rfl,
              fun _ => ⟨hnored.1, hnored.2⟩, hrnb, hrbal⟩
          · simp only [cbh, bH_node, bH_nil, toNat_blk, toNat_red, toNat_dbl,
              Int.toNat_zero, Int.toNat_one, toNat_two] at hb ⊢ <;>
              omega
          · simp only [cbh, bH_node, bH_nil, toNat_blk, toNat_red, toNat_dbl,
              Int.toNat_zero, Int.toNat_one, toNat_two] at hb ⊢ <;>
              omega
      · -- the sibling has a RED child: rotation cases
        simp only [Bool.not_eq_false] at hnored
        have hg3 : ((Tree.node k c l (Tree.node rk 1 rl rr)).left.color n ==
              RBTREE_CLR_DBL &&
            !has_red_child_node (Tree.node k c l (Tree.node rk 1 rl rr)).right
              n ||
            ((Tree.node k c l (Tree.node rk 1 rl rr)).right.color n ==
              RBTREE_CLR_DBL &&
            !has_red_child_node (Tree.node k c l (Tree.node rk 1 rl rr)).left
              n)) = false := by
          simp only [left_node, right_node]
          rw [hnored]
          simp
        have hg4 : ((Tree.node k c l (Tree.node rk 1 rl rr)).left.color n ==
            RBTREE_CLR_DBL) = true := by
          simp only [left_node]
          exact hlc2
        rw [has_red_child_eq hn0] at hnored
        simp only [left_node, right_node, Bool.or_eq_true] at hnored
        by_cases hrlred : redRoot rl = true
        · -- near nephew RED: small right rotation at the sibling first
          cases rl with
          | nil => simp [redRoot] at hrlred
          | node mk mc m1 m2 =>
              simp only [redRoot_node, beq_iff_eq] at hrlred
              subst hrlred
              obtain ⟨hvm1, hvm2, -, hmimp, hmnb, hmbal⟩ :=
                validTree_node_iff.mp hvrl
              have hsm : ((Tree.node k c l
                  (Tree.node rk 1 (Tree.node mk 0 m1 m2) rr)).right.left.color
                    n == RBTREE_CLR_RED) = true := by
                simp
              unfold __rbtree_erase_maintain
              rw [dif_neg hg1, dif_neg hg2, if_neg (by rw [hg3]; simp),
                if_pos (by rw [hg4]), if_pos (by rw [hsm])]
              rcases hd with ⟨rfl, rfl⟩ | ⟨rfl, dk, dl, dr, rfl, hvdl, hvdr,
                hnbd, hbhd⟩
              · simp only [left_node, right_node, color_nil, color_node,
                  withColor_nil, withColor_node, setLeft_node, setRight_node,
                  Tree.setLeft, Tree.setRight, rbtree_right_rotate,
                  rbtree_left_rotate, RBTREE_CLR_BLK, RBTREE_CLR_RED,
                  int_two_sub_one, int_one_sub_one]
                refine ⟨by decide, by simp, ?_⟩
                refine ⟨mk, c, .node k 1 .nil m1,
                  .node rk 1 m2 rr, rfl, Or.inl rfl, ?_, ?_,
                  fun hx => by simp, by simp, ?_, ?_⟩
                · rw [validTree_node_iff]
                  refine ⟨validTree_nil, hvm1, Or.inr rfl,
                    by intro hx; exact absurd hx (by decide), by simp, ?_⟩
                  simp only [cbh, bH_node, bH_nil, toNat_blk, toNat_red, toNat_dbl,
                    Int.toNat_zero, Int.toNat_one, toNat_two] at hb hmbal hrbal ⊢ <;>
                    omega
                · rw [validTree_node_iff]
                  refine ⟨hvm2, hvrr, Or.inr rfl,
                    by intro hx; exact absurd hx (by decide),
                    by simp [(hmimp rfl).2], ?_⟩
                  simp only [cbh, bH_node, toNat_blk, toNat_red,
                    Int.toNat_zero] at hb hmbal hrbal ⊢
                  omega
                · simp only [cbh, bH_node, bH_nil, toNat_blk, toNat_red, toNat_dbl,
                    Int.toNat_zero, Int.toNat_one, toNat_two] at hb hmbal hrbal ⊢ <;>
                    omega
                · simp only [cbh, bH_node, bH_nil, toNat_blk, toNat_red, toNat_dbl,
                    Int.toNat_zero, Int.toNat_one, toNat_two] at hb hmbal hrbal ⊢ <;>
                    omega
              · simp only [left_node, right_node, color_nil, color_node,
                  withColor_nil, withColor_node, setLeft_node, setRight_node,
                  Tree.setLeft, Tree.setRight, rbtree_right_rotate,
                  rbtree_left_rotate, RBTREE_CLR_BLK, RBTREE_CLR_RED,
                  RBTREE_CLR_DBL, int_two_sub_one, int_one_sub_one]
                refine ⟨by decide, by simp, ?_⟩
                refine ⟨mk, c,
                  .node k 1 (.node dk 1 dl dr) m1,
                  .node rk 1 m2 rr, rfl, Or.inl rfl, ?_, ?_,
                  fun hx => by simp, by simp, ?_, ?_⟩
                · rw [validTree_node_iff, validTree_node_iff]
                  refine ⟨⟨hvdl, hvdr, Or.inr rfl,
                      by intro hx; exact absurd hx (by decide), hnbd, hbhd⟩,
                    hvm1, Or.inr rfl,
                    by intro hx; exact absurd hx (by decide), by simp, ?_⟩
                  simp only [cbh, bH_node, bH_nil, toNat_blk, toNat_red, toNat_dbl,
                    Int.toNat_zero, Int.toNat_one, toNat_two] at hb hmbal hrbal ⊢ <;>
                    omega
                · rw [validTree_node_iff]
                  refine ⟨hvm2, hvrr, Or.inr rfl,
                    by intro hx; exact absurd hx (by decide),
                    by simp [(hmimp rfl).2], ?_⟩
                  simp only [cbh, bH_node, toNat_blk, toNat_red, toNat_dbl,
                    Int.toNat_zero] at hb hmbal hrbal ⊢
                  omega
                · simp only [cbh, bH_node, bH_nil, toNat_blk, toNat_red, toNat_dbl,
                    Int.toNat_zero, Int.toNat_one, toNat_two] at hb hmbal hrbal ⊢ <;>
                    omega
                · simp only [cbh, bH_node, bH_nil, toNat_blk, toNat_red, toNat_dbl,
                    Int.toNat_zero, Int.toNat_one, toNat_two] at hb hmbal hrbal ⊢ <;>
                    omega
        · -- far nephew RED: single big left rotation
          have hrrred : redRoot rr = true := by
            rcases hnored with h | h
            · exact absurd h (by simp [hrlred])
            · exact h
          cases rr with
          | nil => simp [redRoot] at hrrred
          | node bk bc b1 b2 =>
              simp only [redRoot_node, beq_iff_eq] at hrrred
              subst hrrred
              obtain ⟨hvb1, hvb2, -, hbimp, hbnb, hbbal⟩ :=
                validTree_node_iff.mp hvrr
              have hsm : ((Tree.node k c l
                  (Tree.node rk 1 rl (Tree.node bk 0 b1 b2))).right.left.color
                    n == RBTREE_CLR_RED) = false := by
                simp only [right_node, left_node]
                rw [color_beq_red hn0]
                simpa using hrlred
              unfold __rbtree_erase_maintain
              rw [dif_neg hg1, dif_neg hg2, if_neg (by rw [hg3]; simp),
                if_pos (by rw [hg4]), if_neg (by rw [hsm]; simp)]
              rcases hd with ⟨rfl, rfl⟩ | ⟨rfl, dk, dl, dr, rfl, hvdl, hvdr,
                hnbd, hbhd⟩
              · simp only [left_node, right_node, color_nil, color_node,
                  withColor_nil, withColor_node, setLeft_node, setRight_node,
                  Tree.setLeft, Tree.setRight, rbtree_right_rotate,
                  rbtree_left_rotate, RBTREE_CLR_BLK, RBTREE_CLR_RED,
                  int_two_sub_one, int_one_sub_one]
                refine ⟨by decide, by simp, ?_⟩
                refine ⟨rk, c, .node k 1 .nil rl,
                  .node bk 1 b1 b2, rfl, Or.inl rfl, ?_, ?_,
                  fun hx => by simp, by simp, ?_, ?_⟩
                · rw [validTree_node_iff]
                  refine ⟨validTree_nil, hvrl, Or.inr rfl,
                    by intro hx; exact absurd hx (by decide),
                    by simp [hrlred], ?_⟩
                  simp only [cbh, bH_node, bH_nil, toNat_blk, toNat_red, toNat_dbl,
                    Int.toNat_zero, Int.toNat_one, toNat_two] at hb hrbal hbbal ⊢ <;>
                    omega
                · rw [validTree_node_iff]
                  exact ⟨hvb1, hvb2, Or.inr rfl,
                    by intro hx; exact absurd hx (by decide), hbnb, hbbal⟩
                · simp only [cbh, bH_node, bH_nil, toNat_blk, toNat_red, toNat_dbl,
                    Int.toNat_zero, Int.toNat_one, toNat_two] at hb hrbal hbbal ⊢ <;>
                    omega
                · simp only [cbh, bH_node, bH_nil, toNat_blk, toNat_red, toNat_dbl,
                    Int.toNat_zero, Int.toNat_one, toNat_two] at hb hrbal hbbal ⊢ <;>
                    omega
              · simp only [left_node, right_node, color_nil, color_node,
                  withColor_nil, withColor_node, setLeft_node, setRight_node,
                  Tree.setLeft, Tree.setRight, rbtree_right_rotate,
                  rbtree_left_rotate, RBTREE_CLR_BLK, RBTREE_CLR_RED,
                  RBTREE_CLR_DBL, int_two_sub_one, int_one_sub_one]
                refine ⟨by decide, by simp, ?_⟩
                refine ⟨rk, c,
                  .node k 1 (.node dk 1 dl dr) rl,
                  .node bk 1 b1 b2, rfl, Or.inl rfl, ?_, ?_,
                  fun hx => by simp, by simp, ?_, ?_⟩
                · rw [validTree_node_iff, validTree_node_iff]
                  refine ⟨⟨hvdl, hvdr, Or.inr rfl,
                      by intro hx; exact absurd hx (by decide), hnbd, hbhd⟩,
                    hvrl, Or.inr rfl,
                    by intro hx; exact absurd hx (by decide),
                    by simp [hrlred], ?_⟩
                  simp only [cbh, bH_node, bH_nil, toNat_blk, toNat_red, toNat_dbl,
                    Int.toNat_zero, Int.toNat_one, toNat_two] at hb hrbal hbbal ⊢ <;>
                    omega
                · rw [validTree_node_iff]
                  exact ⟨hvb1, hvb2, Or.inr rfl,
                    by intro hx; exact absurd hx (by decide), hbnb, hbbal⟩
                · simp only [cbh, bH_node, bH_nil, toNat_blk, toNat_red, toNat_dbl,
                    Int.toNat_zero, Int.toNat_one, toNat_two] at hb hrbal hbbal ⊢ <;>
                    omega
                · simp only [cbh, bH_node, bH_nil, toNat_blk, toNat_red, toNat_dbl,
                    Int.toNat_zero, Int.toNat_one, toNat_two] at hb hrbal hbbal ⊢ <;>
                    omega

/-- The black sibling cases of `__rbtree_erase_maintain` (double black on
the right), mirror of `erase_maintain_sib_black_left`. -/
lemma erase_maintain_sib_black_right (k c : Int) (l r : Tree) (n : Int)
    (hc : c = 0 ∨ c = 1) (hd : dblChild r n) (hl : validTree l)
    (hb : cbh r = bH l) (hsl : redRoot l = false) :
    (__rbtree_erase_maintain (.node k c l r) n).2 = 1 ∧
    inorder (__rbtree_erase_maintain (.node k c l r) n).1 =
      inorder (Tree.node k c l r) ∧
    postOK (__rbtree_erase_maintain (.node k c l r) n).1
      (cbh r + c.toNat) c := by
  have hn0 : n ≠ 0 := by rcases dbl_n_cases hd with rfl | rfl <;> decide
  have hlge : 2 ≤ bH l := hb ▸ cbh_ge_two hd
  cases l with
  | nil => simp at hlge
  | node lk lc ll lr =>
      obtain ⟨hvll, hvlr, hlc, hlimp, hlnb, hlbal⟩ := validTree_node_iff.mp hl
      have hlc1 : lc = 1 := by
        simp only [redRoot_node] at hsl
        rcases hlc with h | h
        · rw [h] at hsl; simp at hsl
        · exact h
      subst hlc1
      have hg1 : ¬((Tree.node k c (Tree.node lk 1 ll lr) r).left.color n ≠
            RBTREE_CLR_DBL ∧
          (Tree.node k c (Tree.node lk 1 ll lr) r).right.color n ≠
            RBTREE_CLR_DBL) := by
        intro hx
        exact hx.2 (by simpa using dbl_left_color hd)
      have hg2 : ¬(has_red_child_node (Tree.node k c (Tree.node lk 1 ll lr) r)
          n = true) := by
        rw [has_red_child_eq hn0]
        simp [dbl_not_red hd]
      have hrc2 : (Tree.color r n == RBTREE_CLR_DBL) = true := by
        rw [beq_iff_eq]; exact dbl_left_color hd
      have hlcne : ((Tree.color (Tree.node lk 1 ll lr) n) ==
          RBTREE_CLR_DBL) = false := by
        simp
      have hvac : ¬(c + 1 = RBTREE_CLR_RED) := by
        rcases hc with rfl | rfl <;> decide
      by_cases hnored : has_red_child_node (Tree.node lk 1 ll lr) n = false
      · -- case B: push blackness up
        rw [has_red_child_eq hn0] at hnored
        simp only [left_node, right_node, Bool.or_eq_false_iff] at hnored
        have hg3 : ((Tree.node k c (Tree.node lk 1 ll lr) r).left.color n ==
              RBTREE_CLR_DBL &&
            !has_red_child_node
              (Tree.node k c (Tree.node lk 1 ll lr) r).right n ||
            ((Tree.node k c (Tree.node lk 1 ll lr) r).right.color n ==
              RBTREE_CLR_DBL &&
            !has_red_child_node
              (Tree.node k c (Tree.node lk 1 ll lr) r).left n)) = true := by
          have hsib : has_red_child_node (Tree.node lk 1 ll lr) n = false := by
            rw [has_red_child_eq hn0]
            simp [hnored.1, hnored.2]
          simp only [left_node, right_node]
          rw [hrc2, hsib]
          simp
        unfold __rbtree_erase_maintain
        rw [dif_neg hg1, dif_neg hg2, if_pos hg3]
        rcases hd with ⟨rfl, rfl⟩ | ⟨rfl, dk, dl, dr, rfl, hvdl, hvdr, hnbd,
          hbhd⟩
        · simp only [left_node, right_node, color_nil, color_node,
            withColor_nil, withColor_node, setLeft_node, setRight_node,
            Tree.setLeft, Tree.setRight, RBTREE_CLR_BLK, int_two_sub_one,
            int_one_sub_one]
          refine ⟨by decide, by simp, ?_⟩
          refine ⟨k, c + 1, .node lk 0 ll lr, .nil, rfl,
            Or.inr rfl, ?_, validTree_nil, fun hx => absurd hx hvac,
            by simp, ?_, ?_⟩
          · rw [validTree_node_iff]
            exact ⟨hvll, hvlr, Or.inl rfl,
              fun _ => ⟨hnored.1, hnored.2⟩, hlnb, hlbal⟩
          · simp only [cbh, bH_node, bH_nil, toNat_blk, toNat_red, toNat_dbl,
              Int.toNat_zero, Int.toNat_one, toNat_two] at hb ⊢ <;>
              omega
          · simp only [cbh, bH_node, bH_nil, toNat_blk, toNat_red, toNat_dbl,
              Int.toNat_zero, Int.toNat_one, toNat_two] at hb ⊢ <;>
              omega
        · simp only [left_node, right_node, color_nil, color_node,
            withColor_nil, withColor_node, setLeft_node, setRight_node,
            Tree.setLeft, Tree.setRight, RBTREE_CLR_BLK, RBTREE_CLR_DBL,
            int_two_sub_one, int_one_sub_one]
          refine ⟨by decide, by simp, ?_⟩
          refine ⟨k, c + 1, .node lk 0 ll lr, .node dk 1 dl dr, rfl,
            Or.inr rfl, ?_, ?_, fun hx => absurd hx hvac, by simp, ?_, ?_⟩
          · rw [validTree_node_iff]
            exact ⟨hvll, hvlr, Or.inl rfl,
              fun _ => ⟨hnored.1, hnored.2⟩, hlnb, hlbal⟩
          · rw [validTree_node_iff]
            exact ⟨hvdl, hvdr, Or.inr rfl,
              by intro hx; exact absurd hx (by decide), hnbd, hbhd⟩
          · simp only [cbh, bH_node, bH_nil, toNat_blk, toNat_red, toNat_dbl,
              Int.toNat_zero, Int.toNat_one, toNat_two] at hb hbhd ⊢ <;>
              omega
          · simp only [cbh, bH_node, bH_nil, toNat_blk, toNat_red, toNat_dbl,
              Int.toNat_zero, Int.toNat_one, toNat_two] at hb hbhd ⊢ <;>
              omega
      · -- the sibling has a RED child: rotation cases
        simp only [Bool.not_eq_false] at hnored
        have hg3 : ((Tree.node k c (Tree.node lk 1 ll lr) r).left.color n ==
              RBTREE_CLR_DBL &&
            !has_red_child_node
              (Tree.node k c (Tree.node lk 1 ll lr) r).right n ||
            ((Tree.node k c (Tree.node lk 1 ll lr) r).right.color n ==
              RBTREE_CLR_DBL &&
            !has_red_child_node
              (Tree.node k c (Tree.node lk 1 ll lr) r).left n)) = false := by
          simp only [left_node, right_node]
          rw [hnored, hlcne]
          simp
        have hg4 : ((Tree.node k c (Tree.node lk 1 ll lr) r).left.color n ==
            RBTREE_CLR_DBL) = false := by
          simp only [left_node]
          exact hlcne
        rw [has_red_child_eq hn0] at hnored
        simp only [left_node, right_node, Bool.or_eq_true] at hnored
        by_cases hlrred : redRoot lr = true
        · -- near nephew RED: small left rotation at the sibling first
          cases lr with
          | nil => simp [redRoot] at hlrred
          | node mk mc m1 m2 =>
              simp only [redRoot_node, beq_iff_eq] at hlrred
              subst hlrred
              obtain ⟨hvm1, hvm2, -, hmimp, hmnb, hmbal⟩ :=
                validTree_node_iff.mp hvlr
              have hllb : redRoot ll = false := by
                cases hwl : redRoot ll with
                | false => rfl
                | true => exact absurd ⟨hwl, rfl⟩ hlnb
              have hsm : ((Tree.node k c
                  (Tree.node lk 1 ll (Tree.node mk 0 m1 m2)) r).left.right.color
                    n == RBTREE_CLR_RED) = true := by
                simp
              unfold __rbtree_erase_maintain
              rw [dif_neg hg1, dif_neg hg2, if_neg (by rw [hg3]; simp),
                if_neg (by rw [hg4]; simp), if_pos (by rw [hsm])]
              rcases hd with ⟨rfl, rfl⟩ | ⟨rfl, dk, dl, dr, rfl, hvdl, hvdr,
                hnbd, hbhd⟩
              · simp only [left_node, right_node, color_nil, color_node,
                  withColor_nil, withColor_node, setLeft_node, setRight_node,
                  Tree.setLeft, Tree.setRight, rbtree_right_rotate,
                  rbtree_left_rotate, RBTREE_CLR_BLK, RBTREE_CLR_RED,
                  int_two_sub_one, int_one_sub_one]
                refine ⟨by decide, by simp, ?_⟩
                refine ⟨mk, c, .node lk 1 ll m1, .node k 1 m2 .nil, rfl,
                  Or.inl rfl, ?_, ?_, fun hx => by simp, by simp, ?_, ?_⟩
                · rw [validTree_node_iff]
                  refine ⟨hvll, hvm1, Or.inr rfl,
                    by intro hx; exact absurd hx (by decide),
                    by simp [hllb], ?_⟩
                  simp only [cbh, bH_node, bH_nil, toNat_blk, toNat_red,
                    toNat_dbl, Int.toNat_zero, Int.toNat_one, toNat_two]
                    at hb hmbal hlbal ⊢ <;> omega
                · rw [validTree_node_iff]
                  refine ⟨hvm2, validTree_nil, Or.inr rfl,
                    by intro hx; exact absurd hx (by decide), by simp, ?_⟩
                  simp only [cbh, bH_node, bH_nil, toNat_blk, toNat_red,
                    toNat_dbl, Int.toNat_zero, Int.toNat_one, toNat_two]
                    at hb hmbal hlbal ⊢ <;> omega
                · simp only [cbh, bH_node, bH_nil, toNat_blk, toNat_red,
                    toNat_dbl, Int.toNat_zero, Int.toNat_one, toNat_two]
                    at hb hmbal hlbal ⊢ <;> omega
                · simp only [cbh, bH_node, bH_nil, toNat_blk, toNat_red,
                    toNat_dbl, Int.toNat_zero, Int.toNat_one, toNat_two]
                    at hb hmbal hlbal ⊢ <;> omega
              · simp only [left_node, right_node, color_nil, color_node,
                  withColor_nil, withColor_node, setLeft_node, setRight_node,
                  Tree.setLeft, Tree.setRight, rbtree_right_rotate,
                  rbtree_left_rotate, RBTREE_CLR_BLK, RBTREE_CLR_RED,
                  RBTREE_CLR_DBL, int_two_sub_one, int_one_sub_one]
                refine ⟨by decide, by simp, ?_⟩
                refine ⟨mk, c, .node lk 1 ll m1,
                  .node k 1 m2 (.node dk 1 dl dr), rfl,
                  Or.inl rfl, ?_, ?_, fun hx => by simp, by simp, ?_, ?_⟩
                · rw [validTree_node_iff]
                  refine ⟨hvll, hvm1, Or.inr rfl,
                    by intro hx; exact absurd hx (by decide),
                    by simp [hllb], ?_⟩
                  simp only [cbh, bH_node, bH_nil, toNat_blk, toNat_red,
                    toNat_dbl, Int.toNat_zero, Int.toNat_one, toNat_two]
                    at hb hmbal hlbal ⊢ <;> omega
                · rw [validTree_node_iff, validTree_node_iff]
                  refine ⟨hvm2, ⟨hvdl, hvdr, Or.inr rfl,
                      by intro hx; exact absurd hx (by decide), hnbd, hbhd⟩,
                    Or.inr rfl, by intro hx; exact absurd hx (by decide),
                    by simp, ?_⟩
                  simp only [cbh, bH_node, bH_nil, toNat_blk, toNat_red,
                    toNat_dbl, Int.toNat_zero, Int.toNat_one, toNat_two]
                    at hb hmbal hlbal ⊢ <;> omega
                · simp only [cbh, bH_node, bH_nil, toNat_blk, toNat_red,
                    toNat_dbl, Int.toNat_zero, Int.toNat_one, toNat_two]
                    at hb hmbal hlbal ⊢ <;> omega
                · simp only [cbh, bH_node, bH_nil, toNat_blk, toNat_red,
                    toNat_dbl, Int.toNat_zero, Int.toNat_one, toNat_two]
                    at hb hmbal hlbal ⊢ <;> omega
        · -- far nephew RED: single big right rotation
          have hllred : redRoot ll = true := by
            rcases hnored with h | h
            · exact h
            · exact absurd h (by simp [hlrred])
          cases ll with
          | nil => simp [redRoot] at hllred
          | node bk bc b1 b2 =>
              simp only [redRoot_node, beq_iff_eq] at hllred
              subst hllred
              obtain ⟨hvb1, hvb2, -, hbimp, hbnb, hbbal⟩ :=
                validTree_node_iff.mp hvll
              have hsm : ((Tree.node k c
                  (Tree.node lk 1 (Tree.node bk 0 b1 b2) lr) r).left.right.color
                    n == RBTREE_CLR_RED) = false := by
                simp only [left_node, right_node]
                rw [color_beq_red hn0]
                simpa using hlrred
              unfold __rbtree_erase_maintain
              rw [dif_neg hg1, dif_neg hg2, if_neg (by rw [hg3]; simp),
                if_neg (by rw [hg4]; simp), if_neg (by rw [hsm]; simp)]
              rcases hd with ⟨rfl, rfl⟩ | ⟨rfl, dk, dl, dr, rfl, hvdl, hvdr,
                hnbd, hbhd⟩
              · simp only [left_node, right_node, color_nil, color_node,
                  withColor_nil, withColor_node, setLeft_node, setRight_node,
                  Tree.setLeft, Tree.setRight, rbtree_right_rotate,
                  rbtree_left_rotate, RBTREE_CLR_BLK, RBTREE_CLR_RED,
                  int_two_sub_one, int_one_sub_one]
                refine ⟨by decide, by simp, ?_⟩
                refine ⟨lk, c, .node bk 1 b1 b2, .node k 1 lr .nil, rfl,
                  Or.inl rfl, ?_, ?_, fun hx => by simp, by simp, ?_, ?_⟩
                · rw [validTree_node_iff]
                  exact ⟨hvb1, hvb2, Or.inr rfl,
                    by intro hx; exact absurd hx (by decide), hbnb, hbbal⟩
                · rw [validTree_node_iff]
                  refine ⟨hvlr, validTree_nil, Or.inr rfl,
                    by intro hx; exact absurd hx (by decide),
                    by simp [hlrred], ?_⟩
                  simp only [cbh, bH_node, bH_nil, toNat_blk, toNat_red,
                    toNat_dbl, Int.toNat_zero, Int.toNat_one, toNat_two]
                    at hb hlbal hbbal ⊢ <;> omega
                · simp only [cbh, bH_node, bH_nil, toNat_blk, toNat_red,
                    toNat_dbl, Int.toNat_zero, Int.toNat_one, toNat_two]
                    at hb hlbal hbbal ⊢ <;> omega
                · simp only [cbh, bH_node, bH_nil, toNat_blk, toNat_red,
                    toNat_dbl, Int.toNat_zero, Int.toNat_one, toNat_two]
                    at hb hlbal hbbal ⊢ <;> omega
              · simp only [left_node, right_node, color_nil, color_node,
                  withColor_nil, withColor_node, setLeft_node, setRight_node,
                  Tree.setLeft, Tree.setRight, rbtree_right_rotate,
                  rbtree_left_rotate, RBTREE_CLR_BLK, RBTREE_CLR_RED,
                  RBTREE_CLR_DBL, int_two_sub_one, int_one_sub_one]
                refine ⟨by decide, by simp, ?_⟩
                refine ⟨lk, c, .node bk 1 b1 b2,
                  .node k 1 lr (.node dk 1 dl dr), rfl,
                  Or.inl rfl, ?_, ?_, fun hx => by simp, by simp, ?_, ?_⟩
                · rw [validTree_node_iff]
                  exact ⟨hvb1, hvb2, Or.inr rfl,
                    by intro hx; exact absurd hx (by decide), hbnb, hbbal⟩
                · rw [validTree_node_iff, validTree_node_iff]
                  refine ⟨hvlr, ⟨hvdl, hvdr, Or.inr rfl,
                      by intro hx; exact absurd hx (by decide), hnbd, hbhd⟩,
                    Or.inr rfl, by intro hx; exact absurd hx (by decide),
                    by simp [hlrred], ?_⟩
                  simp only [cbh, bH_node, bH_nil, toNat_blk, toNat_red,
                    toNat_dbl, Int.toNat_zero, Int.toNat_one, toNat_two]
                    at hb hlbal hbbal ⊢ <;> omega
                · simp only [cbh, bH_node, bH_nil, toNat_blk, toNat_red,
                    toNat_dbl, Int.toNat_zero, Int.toNat_one, toNat_two]
                    at hb hlbal hbbal ⊢ <;> omega
                · simp only [cbh, bH_node, bH_nil, toNat_blk, toNat_red,
                    toNat_dbl, Int.toNat_zero, Int.toNat_one, toNat_two]
                    at hb hlbal hbbal ⊢ <;> omega

lemma postOK_validTree {t2 : Tree} {H : Nat} (h : postOK t2 H 0) :
    validTree t2 ∧ bH t2 = H ∧ t2 ≠ .nil := by
  obtain ⟨k2, c2, l2, r2, rfl, hor, hvl, hvr, himp, hnb, hbe, hto⟩ := h
  have hc2 : c2 = RBTREE_CLR_RED ∨ c2 = RBTREE_CLR_BLK := by
    rcases hor with rfl | rfl
    · exact Or.inl rfl
    · exact Or.inr rfl
  refine ⟨?_, ?_, by simp⟩
  · rw [validTree_node_iff]
    exact ⟨hvl, hvr, hc2, himp, hnb, hbe⟩
  · simpa using hto

/-- Full specification of the erase rebalancer with a double black child
on the left; the RED sibling case reduces to the black sibling cases. -/
lemma erase_maintain_spec_left (k c : Int) (l r : Tree) (n : Int)
    (hc : c = 0 ∨ c = 1) (hd : dblChild l n) (hr : validTree r)
    (hb : cbh l = bH r) (hcr : c = 0 → redRoot r = false) :
    (__rbtree_erase_maintain (.node k c l r) n).2 = 1 ∧
    inorder (__rbtree_erase_maintain (.node k c l r) n).1 =
      inorder (Tree.node k c l r) ∧
    postOK (__rbtree_erase_maintain (.node k c l r) n).1
      (cbh l + c.toNat) c := by
  by_cases hsr : redRoot r = false
  · exact erase_maintain_sib_black_left k c l r n hc hd hr hb hsr
  · -- case A: the sibling is RED, so the parent is BLACK
    simp only [Bool.not_eq_false] at hsr
    have hc1 : c = 1 := by
      rcases hc with rfl | rfl
      · rw [hcr rfl] at hsr; exact absurd hsr (by simp)
      · rfl
    subst hc1
    have hn0 : n ≠ 0 := by rcases dbl_n_cases hd with rfl | rfl <;> decide
    cases r with
    | nil => simp [redRoot] at hsr
    | node rk rc ra rb =>
        simp only [redRoot_node, beq_iff_eq] at hsr
        subst hsr
        obtain ⟨hvra, hvrb, -, hrimp, hrnb, hrbal⟩ := validTree_node_iff.mp hr
        have hg1 : ¬((Tree.node k 1 l (Tree.node rk 0 ra rb)).left.color n ≠
              RBTREE_CLR_DBL ∧
            (Tree.node k 1 l (Tree.node rk 0 ra rb)).right.color n ≠
              RBTREE_CLR_DBL) := by
          intro hx
          exact hx.1 (by simpa using dbl_left_color hd)
        have hg2 : has_red_child_node
            (Tree.node k 1 l (Tree.node rk 0 ra rb)) n = true := by
          rw [has_red_child_eq hn0]
          simp
        have hin : (l.color n == RBTREE_CLR_RED) = false := by
          rw [dbl_left_color hd]
          decide
        unfold __rbtree_erase_maintain
        rw [dif_neg hg1, dif_pos hg2]
        simp only [left_node, right_node, color_nil, color_node,
          withColor_nil, withColor_node, rbtree_left_rotate,
          rbtree_right_rotate, Tree.setLeft, Tree.setRight, hin,
          Bool.false_eq_true, if_false, ite_false]
        have hrec := erase_maintain_sib_black_left k 0 l ra n (Or.inl rfl)
          hd hvra
          (by simp only [cbh, bH_node, toNat_red, Int.toNat_zero] at hb ⊢
              omega)
          ((hrimp rfl).1)
        obtain ⟨hrec1, hrec2, hrec3⟩ := hrec
        obtain ⟨hvs, hbs, hns⟩ := postOK_validTree hrec3
        cases hse : (__rbtree_erase_maintain (Tree.node k 0 l ra) n).1 with
        | nil => exact absurd hse hns
        | node sk sc sl sr =>
            rw [hse] at hrec2 hvs hbs
            simp only [setRight_node, hrec1, hse]
            refine ⟨trivial, ?_, ?_⟩
            · simp only [inorder_node] at hrec2 ⊢
              rw [hrec2]
              simp
            · obtain ⟨hvsl, hvsr, hsc, hsimp, hsnb, hsbal⟩ :=
                validTree_node_iff.mp hvs
              refine ⟨rk, 1, .node sk sc sl sr, rb, rfl, Or.inl rfl, hvs,
                hvrb, by intro hx; exact absurd hx (by decide),
                by simp [(hrimp rfl).2], ?_, ?_⟩
              · rw [hbs]
                simp only [cbh, bH_node, toNat_red, toNat_blk, toNat_dbl,
                  Int.toNat_zero, Int.toNat_one, toNat_two] at hb hrbal ⊢ <;>
                  omega
              · simp only [cbh, bH_node, toNat_red, toNat_blk, toNat_dbl,
                  Int.toNat_zero, Int.toNat_one, toNat_two] at hb hrbal hbs
                  ⊢ <;> omega

/-- Full specification of the erase rebalancer with a double black child
on the right, mirror of `erase_maintain_spec_left`. -/
lemma erase_maintain_spec_right (k c : Int) (l r : Tree) (n : Int)
    (hc : c = 0 ∨ c = 1) (hd : dblChild r n) (hl : validTree l)
    (hb : cbh r = bH l) (hcl : c = 0 → redRoot l = false) :
    (__rbtree_erase_maintain (.node k c l r) n).2 = 1 ∧
    inorder (__rbtree_erase_maintain (.node k c l r) n).1 =
      inorder (Tree.node k c l r) ∧
    postOK (__rbtree_erase_maintain (.node k c l r) n).1
      (cbh r + c.toNat) c := by
  by_cases hsl : redRoot l = false
  · exact erase_maintain_sib_black_right k c l r n hc hd hl hb hsl
  · simp only [Bool.not_eq_false] at hsl
    have hc1 : c = 1 := by
      rcases hc with rfl | rfl
      · rw [hcl rfl] at hsl; exact absurd hsl (by simp)
      · rfl
    subst hc1
    have hn0 : n ≠ 0 := by rcases dbl_n_cases hd with rfl | rfl <;> decide
    cases l with
    | nil => simp [redRoot] at hsl
    | node lk lc la lb =>
        simp only [redRoot_node, beq_iff_eq] at hsl
        subst hsl
        obtain ⟨hvla, hvlb, -, hlimp, hlnb, hlbal⟩ := validTree_node_iff.mp hl
        have hg1 : ¬((Tree.node k 1 (Tree.node lk 0 la lb) r).left.color n ≠
              RBTREE_CLR_DBL ∧
            (Tree.node k 1 (Tree.node lk 0 la lb) r).right.color n ≠
              RBTREE_CLR_DBL) := by
          intro hx
          exact hx.2 (by simpa using dbl_left_color hd)
        have hg2 : has_red_child_node
            (Tree.node k 1 (Tree.node lk 0 la lb) r) n = true := by
          rw [has_red_child_eq hn0]
          simp
        unfold __rbtree_erase_maintain
        rw [dif_neg hg1, dif_pos hg2]
        simp only [left_node, right_node, color_nil, color_node,
          withColor_nil, withColor_node, rbtree_left_rotate,
          rbtree_right_rotate, Tree.setLeft, Tree.setRight,
          beq_self_eq_true, if_true, ite_true]
        have hrec := erase_maintain_sib_black_right k 0 lb r n (Or.inl rfl)
          hd hvlb
          (by simp only [cbh, bH_node, toNat_red, Int.toNat_zero] at hb hlbal
                ⊢
              omega)
          ((hlimp rfl).2)
        obtain ⟨hrec1, hrec2, hrec3⟩ := hrec
        obtain ⟨hvs, hbs, hns⟩ := postOK_validTree hrec3
        cases hse : (__rbtree_erase_maintain (Tree.node k 0 lb r) n).1 with
        | nil => exact absurd hse hns
        | node sk sc sl sr =>
            rw [hse] at hrec2 hvs hbs
            simp only [setRight_node, hrec1, hse]
            refine ⟨trivial, ?_, ?_⟩
            · simp only [inorder_node] at hrec2 ⊢
              rw [hrec2]
              simp
            · refine ⟨lk, 1, la, .node sk sc sl sr, rfl, Or.inl rfl, hvla,
                hvs, by intro hx; exact absurd hx (by decide),
                by simp [(hlimp rfl).1], ?_, ?_⟩
              · rw [hbs]
                simp only [cbh, bH_node, toNat_red, toNat_blk, toNat_dbl,
                  Int.toNat_zero, Int.toNat_one, toNat_two] at hb hlbal ⊢ <;>
                  omega
              · simp only [cbh, bH_node, toNat_red, toNat_blk, toNat_dbl,
                  Int.toNat_zero, Int.toNat_one, toNat_two] at hb hlbal hbs
                  ⊢ <;> omega

/-! ### The degree-2 reduction of erase (predecessor copy) -/

lemma erase_deg2_eq (k c : Int) (l r : Tree) (n : Int) (hl : l ≠ .nil)
    (hr : r ≠ .nil) :
    __rbtree_erase (.node k c l r) k n =
      __rbtree_erase_maintain
        (.node (__rbtree_find_predecessor (.node k c l r)).key c
          (__rbtree_erase l (__rbtree_find_predecessor (.node k c l r)).key n).1
          r)
        (__rbtree_erase l (__rbtree_find_predecessor (.node k c l r)).key n).2 := by
  simp only [__rbtree_erase, lt_irrefl, if_false, gt_iff_lt]
  rw [if_neg (by simp [hl, hr])]


/-! ### Assembling one erase unwind level -/

lemma postOK_cases {t2 : Tree} {H : Nat} {c : Int} (hc : c = 0 ∨ c = 1)
    (h : postOK t2 H c) :
    (validTree t2 ∧ bH t2 = H ∧ (c = 1 → redRoot t2 = false)) ∨
    (c = 1 ∧ ∃ k2 l2 r2, t2 = Tree.node k2 RBTREE_CLR_DBL l2 r2 ∧
      validTree l2 ∧ validTree r2 ∧
      ¬(redRoot l2 = true ∧ redRoot r2 = true) ∧
      bH l2 = bH r2 ∧ bH l2 + 2 = H) := by
  obtain ⟨k2, c2, l2, r2, rfl, hor, hvl, hvr, himp, hnb, hbe, hto⟩ := h
  rcases hc with rfl | rfl
  · left
    have hc2 : c2 = RBTREE_CLR_RED ∨ c2 = RBTREE_CLR_BLK := by
      rcases hor with rfl | rfl
      · exact Or.inl rfl
      · exact Or.inr rfl
    refine ⟨validTree_node_iff.mpr ⟨hvl, hvr, hc2, himp, hnb, hbe⟩,
      by simpa using hto, fun h1 => absurd h1 (by decide)⟩
  · rcases hor with rfl | rfl
    · left
      refine ⟨validTree_node_iff.mpr ⟨hvl, hvr, Or.inr rfl, himp, hnb, hbe⟩,
        by simpa using hto, fun _ => by simp [redRoot]⟩
    · right
      refine ⟨rfl, k2, l2, r2, by norm_num, hvl, hvr, hnb, hbe, ?_⟩
      have h2 : ((1 : Int) + 1).toNat = 2 := rfl
      omega

lemma EOut_resolve {B : Nat} {rr : Bool} {t2 : Tree} {n2 : Int}
    (h : EOut B rr t2 n2) :
    (n2 = 1 ∧ validTree t2 ∧ bH t2 = B ∧ (rr = false → redRoot t2 = false)) ∨
    (dblChild t2 n2 ∧ cbh t2 = B) := by
  rcases h with h | ⟨rfl, rfl, hB⟩ |
    ⟨h1, k2, l2, r2, rfl, hvl, hvr, hnb, hbe, hB⟩
  · exact Or.inl h
  · exact Or.inr ⟨Or.inl ⟨rfl, rfl⟩, by simp [cbh, hB]⟩
  · refine Or.inr ⟨Or.inr ⟨h1, k2, l2, r2, rfl, hvl, hvr, hnb, hbe⟩, ?_⟩
    simp only [cbh, toNat_dbl]
    omega

/-- One unwind level of erase, left side: the left child has been replaced
by a recursive result `s1` (with sentinel color `n1`) and the rebalancer
runs; covers both a clean child and a double-black child. -/
lemma erase_step_left (k1 c : Int) (s1 r : Tree) (n1 : Int) (bl : Nat)
    (hc : c = 0 ∨ c = 1) (hvr : validTree r) (hbr : bl = bH r)
    (hcr : c = 0 → redRoot r = false)
    (hout :
      (n1 = 1 ∧ validTree s1 ∧ bH s1 = bl ∧
        (redRoot s1 = true → redRoot r = false) ∧
        (c = 0 → redRoot s1 = false)) ∨
      (dblChild s1 n1 ∧ cbh s1 = bl)) :
    (__rbtree_erase_maintain (.node k1 c s1 r) n1).2 = 1 ∧
    inorder (__rbtree_erase_maintain (.node k1 c s1 r) n1).1 =
      inorder s1 ++ k1 :: inorder r ∧
    EOut (bl + c.toNat) (c == 0)
      (__rbtree_erase_maintain (.node k1 c s1 r) n1).1
      (__rbtree_erase_maintain (.node k1 c s1 r) n1).2 := by
  rcases hout with ⟨rfl, hvs, hbs, hsr, hc0⟩ | ⟨hd, hcb⟩
  · have hnp : (Tree.node k1 c s1 r).left.color 1 ≠ RBTREE_CLR_DBL ∧
        (Tree.node k1 c s1 r).right.color 1 ≠ RBTREE_CLR_DBL := by
      constructor
      · simpa using color_ne_dbl_of_dblFree hvs.1
      · simpa using color_ne_dbl_of_dblFree hvr.1
    rw [erase_maintain_noop _ _ hnp]
    refine ⟨rfl, by simp, Or.inl ⟨rfl, ?_, ?_, ?_⟩⟩
    · refine validTree_node_iff.mpr ⟨hvs, hvr, hc, ?_, ?_, hbs.trans hbr⟩
      · exact fun h => ⟨hc0 h, hcr h⟩
      · rintro ⟨h1, h2⟩
        rw [hsr h1] at h2
        exact absurd h2 (by simp)
    · simp only [bH_node, hbs]
    · intro hcf
      simpa using hcf
  · have hspec := erase_maintain_spec_left k1 c s1 r n1 hc hd hvr
      (hcb.trans hbr) hcr
    obtain ⟨h1, h2, h3⟩ := hspec
    refine ⟨h1, by simpa using h2, ?_⟩
    rcases postOK_cases hc h3 with ⟨hv2, hb2, hr2⟩ | ⟨hc1, hdd⟩
    · refine Or.inl ⟨h1, hv2, ?_, ?_⟩
      · rw [hb2, hcb]
      · intro hcf
        apply hr2
        rcases hc with rfl | rfl
        · exact absurd hcf (by decide)
        · rfl
    · obtain ⟨k2, l2, r2, he, hvl2, hvr2, hnb2, hbe2, hB2⟩ := hdd
      refine Or.inr (Or.inr ⟨h1, k2, l2, r2, he, hvl2, hvr2, hnb2, hbe2, ?_⟩)
      rw [hcb] at hB2
      exact hB2


/-- One unwind level of erase, right side: mirror of `erase_step_left`. -/
lemma erase_step_right (k1 c : Int) (l s1 : Tree) (n1 : Int) (br : Nat)
    (hc : c = 0 ∨ c = 1) (hvl : validTree l) (hbl : br = bH l)
    (hcl : c = 0 → redRoot l = false)
    (hout :
      (n1 = 1 ∧ validTree s1 ∧ bH s1 = br ∧
        (redRoot s1 = true → redRoot l = false) ∧
        (c = 0 → redRoot s1 = false)) ∨
      (dblChild s1 n1 ∧ cbh s1 = br)) :
    (__rbtree_erase_maintain (.node k1 c l s1) n1).2 = 1 ∧
    inorder (__rbtree_erase_maintain (.node k1 c l s1) n1).1 =
      inorder l ++ k1 :: inorder s1 ∧
    EOut (br + c.toNat) (c == 0)
      (__rbtree_erase_maintain (.node k1 c l s1) n1).1
      (__rbtree_erase_maintain (.node k1 c l s1) n1).2 := by
  rcases hout with ⟨rfl, hvs, hbs, hsl, hc0⟩ | ⟨hd, hcb⟩
  · have hnp : (Tree.node k1 c l s1).left.color 1 ≠ RBTREE_CLR_DBL ∧
        (Tree.node k1 c l s1).right.color 1 ≠ RBTREE_CLR_DBL := by
      constructor
      · simpa using color_ne_dbl_of_dblFree hvl.1
      · simpa using color_ne_dbl_of_dblFree hvs.1
    rw [erase_maintain_noop _ _ hnp]
    refine ⟨rfl, by simp, Or.inl ⟨rfl, ?_, ?_, ?_⟩⟩
    · refine validTree_node_iff.mpr
        ⟨hvl, hvs, hc, ?_, ?_, hbl.symm.trans hbs.symm⟩
      · exact fun h => ⟨hcl h, hc0 h⟩
      · rintro ⟨h1, h2⟩
        rw [hsl h2] at h1
        exact absurd h1 (by simp)
    · simp only [bH_node, hbl]
    · intro hcf
      simpa using hcf
  · have hspec := erase_maintain_spec_right k1 c l s1 n1 hc hd hvl
      (hcb.trans hbl) hcl
    obtain ⟨h1, h2, h3⟩ := hspec
    refine ⟨h1, by simpa using h2, ?_⟩
    rcases postOK_cases hc h3 with ⟨hv2, hb2, hr2⟩ | ⟨hc1, hdd⟩
    · refine Or.inl ⟨h1, hv2, ?_, ?_⟩
      · rw [hb2, hcb]
      · intro hcf
        apply hr2
        rcases hc with rfl | rfl
        · exact absurd hcf (by decide)
        · rfl
    · obtain ⟨k2, l2, r2, he, hvl2, hvr2, hnb2, hbe2, hB2⟩ := hdd
      refine Or.inr (Or.inr ⟨h1, k2, l2, r2, he, hvl2, hvr2, hnb2, hbe2, ?_⟩)
      rw [hcb] at hB2
      exact hB2

lemma filter_last_self {A : List Int} {p : Int} (hA : ∀ x ∈ A, x < p) :
    (A ++ [p]).filter (fun x => x != p) = A := by
  have hpA : p ∉ A := fun h => absurd (hA p h) (lt_irrefl p)
  simpa using filter_mid_self hpA (List.not_mem_nil p)

/-- Full specification of one erase descent: the in-order sequence loses
exactly the erased key, and the result is a clean subtree, the
double-black sentinel, or a double-black-rooted node (`EOut`). -/
lemma erase_go_spec (t : Tree) :
    ∀ (k : Int), validTree t → (inorder t).Pairwise (· < ·) →
    inorder (__rbtree_erase t k 1).1 =
      (inorder t).filter (fun x => x != k) ∧
    EOut (bH t) (redRoot t) (__rbtree_erase t k 1).1
      (__rbtree_erase t k 1).2 := by
  induction t with
  | nil =>
      intro k _ _
      exact ⟨by simp [__rbtree_erase],
        Or.inl ⟨rfl, validTree_nil, rfl, fun _ => rfl⟩⟩
  | node k0 c l r ihl ihr =>
      intro k hv hs
      obtain ⟨hvl, hvr, hcc, himp, hnb, hbal⟩ := validTree_node_iff.mp hv
      obtain ⟨hsl, hsr, hAlt, hBgt⟩ :=
        sorted_decomp (A := inorder l) (B := inorder r) (k := k0)
          (by simpa using hs)
      have hc01 : c = 0 ∨ c = 1 := hcc
      by_cases hlt : k < k0
      · have hih := ihl k hvl hsl
        have hknr : k ∉ inorder r := fun h => absurd (hBgt k h) (by omega)
        have hout2 : ((__rbtree_erase l k 1).2 = 1 ∧
            validTree (__rbtree_erase l k 1).1 ∧
            bH (__rbtree_erase l k 1).1 = bH l ∧
            (redRoot (__rbtree_erase l k 1).1 = true →
              redRoot r = false) ∧
            (c = 0 → redRoot (__rbtree_erase l k 1).1 = false)) ∨
            (dblChild (__rbtree_erase l k 1).1 (__rbtree_erase l k 1).2 ∧
             cbh (__rbtree_erase l k 1).1 = bH l) := by
          rcases EOut_resolve hih.2 with ⟨h1, h2, h3, h4⟩ | hd
          · refine Or.inl ⟨h1, h2, h3, ?_, ?_⟩
            · intro hrs
              by_cases hrl : redRoot l = true
              · by_cases hrr : redRoot r = true
                · exact absurd ⟨hrl, hrr⟩ hnb
                · simpa using hrr
              · rw [h4 (by simpa using hrl)] at hrs
                exact absurd hrs (by simp)
            · intro hc0
              exact h4 ((himp hc0).1)
          · exact Or.inr hd
        obtain ⟨he2, hio, hEO⟩ := erase_step_left k0 c
          (__rbtree_erase l k 1).1 r (__rbtree_erase l k 1).2 (bH l)
          hc01 hvr hbal (fun h => (himp h).2) hout2
        have hred : __rbtree_erase (Tree.node k0 c l r) k 1 =
            __rbtree_erase_maintain
              (.node k0 c (__rbtree_erase l k 1).1 r)
              (__rbtree_erase l k 1).2 := by
          simp only [__rbtree_erase]
          rw [if_pos hlt]
        rw [hred]
        constructor
        · rw [hio, hih.1, inorder_node, filter_mid_left hlt.ne hknr]
        · simpa using hEO
      · by_cases hgt : k0 < k
        · have hih := ihr k hvr hsr
          have hknl : k ∉ inorder l := fun h => absurd (hAlt k h) (by omega)
          have hout2 : ((__rbtree_erase r k 1).2 = 1 ∧
              validTree (__rbtree_erase r k 1).1 ∧
              bH (__rbtree_erase r k 1).1 = bH l ∧
              (redRoot (__rbtree_erase r k 1).1 = true →
                redRoot l = false) ∧
              (c = 0 → redRoot (__rbtree_erase r k 1).1 = false)) ∨
              (dblChild (__rbtree_erase r k 1).1 (__rbtree_erase r k 1).2 ∧
               cbh (__rbtree_erase r k 1).1 = bH l) := by
            rcases EOut_resolve hih.2 with ⟨h1, h2, h3, h4⟩ | ⟨hd1, hd2⟩
            · refine Or.inl ⟨h1, h2, h3.trans hbal.symm, ?_, ?_⟩
              · intro hrs
                by_cases hrr : redRoot r = true
                · by_cases hrl : redRoot l = true
                  · exact absurd ⟨hrl, hrr⟩ hnb
                  · simpa using hrl
                · rw [h4 (by simpa using hrr)] at hrs
                  exact absurd hrs (by simp)
              · intro hc0
                exact h4 ((himp hc0).2)
            · exact Or.inr ⟨hd1, hd2.trans hbal.symm⟩
          obtain ⟨he2, hio, hEO⟩ := erase_step_right k0 c l
            (__rbtree_erase r k 1).1 (__rbtree_erase r k 1).2 (bH l)
            hc01 hvl rfl (fun h => (himp h).1) hout2
          have hred : __rbtree_erase (Tree.node k0 c l r) k 1 =
              __rbtree_erase_maintain
                (.node k0 c l (__rbtree_erase r k 1).1)
                (__rbtree_erase r k 1).2 := by
            simp only [__rbtree_erase, gt_iff_lt]
            rw [if_neg hlt, if_pos hgt]
          rw [hred]
          constructor
          · rw [hio, hih.1, inorder_node, filter_mid_right hgt.ne' hknl]
          · simpa using hEO
        · have hk : k = k0 := le_antisymm (not_lt.mp hgt) (not_lt.mp hlt)
          subst hk
          by_cases hnil : l = Tree.nil ∨ r = Tree.nil
          · have hred : __rbtree_erase (Tree.node k c l r) k 1 =
                (if l ≠ Tree.nil then l else r).withColor
                  ((if l ≠ Tree.nil then l else r).color 1 + c) 1 := by
              simp only [__rbtree_erase, lt_irrefl, if_false, gt_iff_lt]
              rw [if_pos hnil]
            rw [hred]
            cases l with
            | nil =>
                rw [if_neg (by simp)]
                cases r with
                | nil =>
                    refine ⟨by simp [List.filter], ?_⟩
                    rcases hc01 with rfl | rfl
                    · exact Or.inl ⟨by decide, validTree_nil, rfl,
                        fun _ => rfl⟩
                    · exact Or.inr (Or.inl ⟨rfl, by decide, rfl⟩)
                | node rk rc rl rr =>
                    obtain ⟨hvrl, hvrr, hrcc, hrimp, hrnb, hrbal⟩ :=
                      validTree_node_iff.mp hvr
                    have hrc0 : rc = 0 := by
                      have h1 := bH_pos rl
                      rcases hrcc with h | h
                      · exact h
                      · subst h
                        simp only [bH_nil, bH_node, toNat_blk] at hbal
                        omega
                    subst hrc0
                    have hc1 : c = 1 := by
                      rcases hc01 with rfl | rfl
                      · exact absurd ((himp rfl).2) (by simp)
                      · rfl
                    subst hc1
                    have hbrl : bH rl = 1 := by
                      simp only [bH_nil, bH_node, toNat_red] at hbal
                      omega
                    refine ⟨?_, ?_⟩
                    · have hknr : k ∉ inorder rl ++ rk :: inorder rr :=
                        fun h => absurd (hBgt k h) (lt_irrefl k)
                      simp only [withColor_node, color_node, inorder_node,
                        inorder_nil, List.nil_append, List.filter_cons,
                        bne_self_eq_false, Bool.false_eq_true, if_false]
                      rw [filter_not_mem_eq hknr]
                    · refine Or.inl ⟨rfl, ?_, ?_, fun _ => rfl⟩
                      · show validTree (Tree.node rk 1 rl rr)
                        exact validTree_node_iff.mpr
                          ⟨hvrl, hvrr, Or.inr rfl,
                           fun h => absurd h (by decide), hrnb, hrbal⟩
                      · simp only [withColor_node, color_node, bH_nil,
                          bH_node, toNat_blk, toNat_red]
                        omega
            | node lk lc ll lr =>
                rw [if_pos (by simp)]
                cases r with
                | node rk rc rl rr => exact absurd hnil (by simp)
                | nil =>
                    obtain ⟨hvll, hvlr, hlcc, hlimp, hlnb, hlbal⟩ :=
                      validTree_node_iff.mp hvl
                    have hlc0 : lc = 0 := by
                      have h1 := bH_pos ll
                      rcases hlcc with h | h
                      · exact h
                      · subst h
                        simp only [bH_nil, bH_node, toNat_blk] at hbal
                        omega
                    subst hlc0
                    have hc1 : c = 1 := by
                      rcases hc01 with rfl | rfl
                      · exact absurd ((himp rfl).1) (by simp)
                      · rfl
                    subst hc1
                    have hbll : bH ll = 1 := by
                      simp only [bH_nil, bH_node, toNat_red] at hbal
                      omega
                    refine ⟨?_, ?_⟩
                    · have hknl : k ∉ inorder ll ++ lk :: inorder lr :=
                        fun h => absurd (hAlt k h) (lt_irrefl k)
                      simp only [withColor_node, color_node, inorder_node,
                        inorder_nil]
                      rw [filter_mid_self hknl (List.not_mem_nil k)]
                      simp
                    · refine Or.inl ⟨rfl, ?_, ?_, fun _ => rfl⟩
                      · show validTree (Tree.node lk 1 ll lr)
                        exact validTree_node_iff.mpr
                          ⟨hvll, hvlr, Or.inr rfl,
                           fun h => absurd h (by decide), hlnb, hlbal⟩
                      · simp only [withColor_node, color_node, bH_nil,
                          bH_node, toNat_blk, toNat_red]
                        omega
          · push_neg at hnil
            obtain ⟨hl, hr⟩ := hnil
            rw [erase_deg2_eq k c l r 1 hl hr]
            have hpred : __rbtree_find_predecessor (Tree.node k c l r) =
                predGo l := rfl
            rw [hpred]
            obtain ⟨A, hA, -⟩ := predGo_last l hl
            have hApk : ∀ x ∈ A, x < (predGo l).key := by
              have hx := hsl
              rw [hA] at hx
              exact (sorted_decomp (A := A) (B := ([] : List Int)) hx).2.2.1
            have hih := ihl (predGo l).key hvl hsl
            have hAfilter : inorder (__rbtree_erase l (predGo l).key 1).1 =
                A := by
              rw [hih.1, hA]
              exact filter_last_self hApk
            have hout2 : ((__rbtree_erase l (predGo l).key 1).2 = 1 ∧
                validTree (__rbtree_erase l (predGo l).key 1).1 ∧
                bH (__rbtree_erase l (predGo l).key 1).1 = bH l ∧
                (redRoot (__rbtree_erase l (predGo l).key 1).1 = true →
                  redRoot r = false) ∧
                (c = 0 →
                  redRoot (__rbtree_erase l (predGo l).key 1).1 = false)) ∨
                (dblChild (__rbtree_erase l (predGo l).key 1).1
                  (__rbtree_erase l (predGo l).key 1).2 ∧
                 cbh (__rbtree_erase l (predGo l).key 1).1 = bH l) := by
              rcases EOut_resolve hih.2 with ⟨h1, h2, h3, h4⟩ | hd
              · refine Or.inl ⟨h1, h2, h3, ?_, ?_⟩
                · intro hrs
                  by_cases hrl : redRoot l = true
                  · by_cases hrr : redRoot r = true
                    · exact absurd ⟨hrl, hrr⟩ hnb
                    · simpa using hrr
                  · rw [h4 (by simpa using hrl)] at hrs
                    exact absurd hrs (by simp)
                · intro hc0
                  exact h4 ((himp hc0).1)
              · exact Or.inr hd
            obtain ⟨he2, hio, hEO⟩ := erase_step_left (predGo l).key c
              (__rbtree_erase l (predGo l).key 1).1 r
              (__rbtree_erase l (predGo l).key 1).2 (bH l)
              hc01 hvr hbal (fun h => (himp h).2) hout2
            constructor
            · rw [hio, hAfilter, inorder_node,
                filter_mid_self
                  (fun h => absurd (hAlt k h) (lt_irrefl k))
                  (fun h => absurd (hBgt k h) (lt_irrefl k)),
                hA]
              simp
            · simpa using hEO


/-- Recoloring the returned root BLACK (as both public operations do)
turns any erase outcome into a reachable top-level state. -/
lemma withColor_blk_top (t : Tree) (n : Int)
    (hparts : t = .nil ∨ ∃ k2 c2 l2 r2, t = .node k2 c2 l2 r2 ∧
      validTree l2 ∧ validTree r2 ∧
      ¬(redRoot l2 = true ∧ redRoot r2 = true) ∧ bH l2 = bH r2)
    (hn1 : t ≠ .nil → n = 1)
    (hsorted : (inorder t).Pairwise (· < ·)) :
    TopValid ⟨(t.withColor RBTREE_CLR_BLK n).1,
      (t.withColor RBTREE_CLR_BLK n).2⟩ ∧
    inorder (t.withColor RBTREE_CLR_BLK n).1 = inorder t := by
  rcases hparts with rfl | ⟨k2, c2, l2, r2, rfl, hvl, hvr, hnb, hbe⟩
  · exact ⟨⟨rfl, validTree_nil, rfl, by simp⟩, rfl⟩
  · have hn : n = 1 := hn1 (by simp)
    subst hn
    refine ⟨⟨rfl, ?_, rfl, hsorted⟩, rfl⟩
    exact validTree_node_iff.mpr ⟨hvl, hvr, Or.inr rfl,
      fun h => absurd h (by decide), hnb, hbe⟩

/-- Public erase: preserves every top-level invariant and removes exactly
the erased key from the in-order sequence. -/
lemma erase_public_spec (st : St) (k : Int) (h : TopValid st) :
    TopValid (rbtree_erase st k) ∧
    inorder (rbtree_erase st k).root =
      (inorder st.root).filter (fun x => x != k) := by
  obtain ⟨hn, hv, hr, hs⟩ := h
  obtain ⟨hio, hEO⟩ := erase_go_spec st.root k hv hs
  have hn1 : st.nilc = 1 := hn
  have hparts : (__rbtree_erase st.root k 1).1 = .nil ∨
      ∃ k2 c2 l2 r2, (__rbtree_erase st.root k 1).1 = .node k2 c2 l2 r2 ∧
        validTree l2 ∧ validTree r2 ∧
        ¬(redRoot l2 = true ∧ redRoot r2 = true) ∧ bH l2 = bH r2 := by
    rcases hEO with ⟨-, h2, -, -⟩ | ⟨h1, -, -⟩ |
      ⟨-, k2, l2, r2, he, hvl2, hvr2, hnb2, hbe2, -⟩
    · cases he : (__rbtree_erase st.root k 1).1 with
      | nil => exact Or.inl rfl
      | node k2 c2 l2 r2 =>
          rw [he] at h2
          obtain ⟨hvl2, hvr2, -, -, hnb2, hbe2⟩ := validTree_node_iff.mp h2
          exact Or.inr ⟨k2, c2, l2, r2, rfl, hvl2, hvr2, hnb2, hbe2⟩
    · exact Or.inl h1
    · exact Or.inr ⟨k2, RBTREE_CLR_DBL, l2, r2, he, hvl2, hvr2, hnb2, hbe2⟩
  have hne1 : (__rbtree_erase st.root k 1).1 ≠ .nil →
      (__rbtree_erase st.root k 1).2 = 1 := by
    rcases hEO with ⟨h1, -, -, -⟩ | ⟨h1, -, -⟩ | ⟨h1, -⟩
    · exact fun _ => h1
    · exact fun hne => absurd h1 hne
    · exact fun _ => h1
  have hsor : (inorder (__rbtree_erase st.root k 1).1).Pairwise (· < ·) := by
    rw [hio]
    exact List.Pairwise.sublist (List.filter_sublist _) hs
  obtain ⟨htv, hioeq⟩ := withColor_blk_top (__rbtree_erase st.root k 1).1
    (__rbtree_erase st.root k 1).2 hparts hne1 hsor
  have hre : rbtree_erase st k =
      ⟨((__rbtree_erase st.root k 1).1.withColor RBTREE_CLR_BLK
          (__rbtree_erase st.root k 1).2).1,
       ((__rbtree_erase st.root k 1).1.withColor RBTREE_CLR_BLK
          (__rbtree_erase st.root k 1).2).2⟩ := by
    simp only [rbtree_erase, hn1]
  rw [hre]
  exact ⟨htv, by rw [show (⟨((__rbtree_erase st.root k 1).1.withColor
    RBTREE_CLR_BLK (__rbtree_erase st.root k 1).2).1,
    ((__rbtree_erase st.root k 1).1.withColor RBTREE_CLR_BLK
    (__rbtree_erase st.root k 1).2).2⟩ : St).root =
    ((__rbtree_erase st.root k 1).1.withColor RBTREE_CLR_BLK
    (__rbtree_erase st.root k 1).2).1 from rfl, hioeq, hio]⟩


/-! ### The public call surface over reachable states -/

lemma topValid_init : TopValid ⟨.nil, RBTREE_CLR_BLK⟩ :=
  ⟨rfl, validTree_nil, rfl, by simp⟩

lemma applyOp_topValid (s : St) (o : Op) (h : TopValid s) :
    TopValid (applyOp s o) := by
  cases o with
  | ins k => exact (insert_public_spec s k h).1
  | del k => exact (erase_public_spec s k h).1

lemma foldl_topValid (ops : List Op) :
    ∀ (s : St), TopValid s → TopValid (ops.foldl applyOp s) := by
  induction ops with
  | nil => exact fun s hs => hs
  | cons o os ih => exact fun s hs => ih _ (applyOp_topValid s o hs)

lemma run_topValid (ops : List Op) : TopValid (run ops) :=
  foldl_topValid ops _ topValid_init

lemma inorder_eq_nil_iff (t : Tree) : inorder t = [] ↔ t = .nil := by
  cases t <;> simp

lemma foldl_mem (ops : List Op) :
    ∀ (s : St), TopValid s → ∀ x,
      (x ∈ inorder (ops.foldl applyOp s).root ↔
        memAfter x ops (decide (x ∈ inorder s.root)) = true) := by
  induction ops with
  | nil => intro s hs x; simp [memAfter]
  | cons o os ih =>
      intro s hs x
      cases o with
      | ins k =>
          have hstep := insert_public_spec s k hs
          have h2 := ih (rbtree_insert s k) hstep.1 x
          simp only [List.foldl_cons, applyOp] at h2 ⊢
          rw [h2, memAfter]
          have harg : (decide (x ∈ inorder (rbtree_insert s k).root)) =
              (if x = k then true else decide (x ∈ inorder s.root)) := by
            rw [hstep.2]
            by_cases hxk : x = k
            · simp [hxk, mem_addKey]
            · simp [hxk, mem_addKey]
          rw [harg]
      | del k =>
          have hstep := erase_public_spec s k hs
          have h2 := ih (rbtree_erase s k) hstep.1 x
          simp only [List.foldl_cons, applyOp] at h2 ⊢
          rw [h2, memAfter]
          have harg : (decide (x ∈ inorder (rbtree_erase s k).root)) =
              (if x = k then false else decide (x ∈ inorder s.root)) := by
            rw [hstep.2]
            by_cases hxk : x = k
            · simp [hxk, List.mem_filter]
            · simp [hxk, List.mem_filter]
          rw [harg]

lemma run_mem (ops : List Op) (x : Int) :
    x ∈ inorder (run ops).root ↔ memAfter x ops false = true := by
  have h := foldl_mem ops ⟨.nil, RBTREE_CLR_BLK⟩ topValid_init x
  simpa using h


/-! ### Round trip -/

lemma memAfter_append (x : Int) (a b : List Op) (v : Bool) :
    memAfter x (a ++ b) v = memAfter x b (memAfter x a v) := by
  induction a generalizing v with
  | nil => simp [memAfter]
  | cons o rest ih =>
      cases o with
      | ins k => simp [memAfter, ih]
      | del k => simp [memAfter, ih]

lemma memAfter_ins_all (x : Int) (I : List Int) (v : Bool) :
    memAfter x (I.map Op.ins) v = (v || decide (x ∈ I)) := by
  induction I generalizing v with
  | nil => simp [memAfter]
  | cons k rest ih =>
      simp only [List.map_cons, memAfter, ih]
      by_cases hxk : x = k <;> simp [hxk]

lemma memAfter_del_all (x : Int) (D : List Int) (v : Bool) :
    memAfter x (D.map Op.del) v = (v && !(decide (x ∈ D))) := by
  induction D generalizing v with
  | nil => simp [memAfter]
  | cons k rest ih =>
      simp only [List.map_cons, memAfter, ih]
      by_cases hxk : x = k <;> simp [hxk]

lemma round_trip (I D : List Int) (hsub : ∀ x, x ∈ I → x ∈ D) :
    (run (I.map Op.ins ++ D.map Op.del)).root = .nil := by
  rw [← inorder_eq_nil_iff, List.eq_nil_iff_forall_not_mem]
  intro x hx
  rw [run_mem, memAfter_append, memAfter_ins_all, memAfter_del_all,
    Bool.false_or, Bool.and_eq_true] at hx
  obtain ⟨h1, h2⟩ := hx
  have hxd : x ∉ D := by simpa using h2
  exact hxd (hsub x (by simpa using h1))

/-! ### Height bound -/

lemma bH_size (t : Tree) (hd : dblFree t = true) (hb : bhOk t = true) :
    2 ^ bH t ≤ 2 * size t + 2 := by
  induction t with
  | nil => simp
  | node k c l r ihl ihr =>
      rw [dblFree_node_iff] at hd
      rw [bhOk_node_iff] at hb
      obtain ⟨hc, hdl, hdr⟩ := hd
      obtain ⟨hbl, hbr, hbe⟩ := hb
      have h1 := ihl hdl hbl
      have h2 := ihr hdr hbr
      have hcn : c.toNat ≤ 1 := by rcases hc with rfl | rfl <;> simp
      simp only [bH_node, size_node]
      calc 2 ^ (bH l + c.toNat) ≤ 2 ^ (bH l + 1) :=
            Nat.pow_le_pow_right (by norm_num) (by omega)
        _ = 2 ^ bH l + 2 ^ bH r := by rw [← hbe]; ring
        _ ≤ 2 * (size l + size r + 1) + 2 := by omega

lemma height_le_bH (t : Tree) (hd : dblFree t = true) (hi : invc t = true)
    (hb : bhOk t = true) :
    (redRoot t = true → height t + 1 ≤ 2 * bH t) ∧
    (redRoot t = false → height t + 2 ≤ 2 * bH t) := by
  induction t with
  | nil => exact ⟨fun h => by simp at h, fun _ => by simp⟩
  | node k c l r ihl ihr =>
      rw [dblFree_node_iff] at hd
      rw [invc_node_iff] at hi
      rw [bhOk_node_iff] at hb
      obtain ⟨hc, hdl, hdr⟩ := hd
      obtain ⟨hil, hir, himp⟩ := hi
      obtain ⟨hbl, hbr, hbe⟩ := hb
      have h1 := ihl hdl hil hbl
      have h2 := ihr hdr hir hbr
      rcases hc with rfl | rfl
      · -- RED root: both children BLACK
        obtain ⟨hrl, hrr⟩ := himp rfl
        have e1 := h1.2 hrl
        have e2 := h2.2 hrr
        refine ⟨fun _ => ?_, fun hfalse => by simp at hfalse⟩
        simp only [height_node, bH_node, toNat_red]
        omega
      · -- BLACK root: each child satisfies the weaker bound
        have e1 : height l + 1 ≤ 2 * bH l := by
          by_cases hrl : redRoot l = true
          · exact h1.1 hrl
          · have := h1.2 (by simpa using hrl)
            omega
        have e2 : height r + 1 ≤ 2 * bH r := by
          by_cases hrr : redRoot r = true
          · exact h2.1 hrr
          · have := h2.2 (by simpa using hrr)
            omega
        refine ⟨fun habs => by simp at habs, fun _ => ?_⟩
        simp only [height_node, bH_node, toNat_blk]
        omega

lemma height_bound (t : Tree) (hv : validTree t) (hr : redRoot t = false) :
    2 ^ height t ≤ (size t + 1) ^ 2 := by
  obtain ⟨hd, hi, hn4, hb⟩ := hv
  have h1 := (height_le_bH t hd hi hb).2 hr
  have h2 := bH_size t hd hb
  have hb1 : 1 ≤ bH t := bH_pos t
  have e3 : 2 ^ (bH t - 1) ≤ size t + 1 := by
    have hsplit : 2 ^ bH t = 2 * 2 ^ (bH t - 1) := by
      rw [← pow_succ']
      congr 1
      omega
    omega
  calc 2 ^ height t ≤ 2 ^ (2 * (bH t - 1)) :=
        Nat.pow_le_pow_right (by norm_num) (by omega)
    _ = (2 ^ (bH t - 1)) ^ 2 := by rw [← pow_mul, Nat.mul_comm]
    _ ≤ (size t + 1) ^ 2 := Nat.pow_le_pow_left e3 2

/-! ### Fuel adequacy: the erase recursion depth is bounded by the height -/

lemma erase_fuel_spec (t : Tree) : ∀ (fuel : Nat), height t < fuel →
    ∀ (k n : Int),
    __rbtree_erase_fuel fuel t k n = some (__rbtree_erase t k n) := by
  induction t with
  | nil =>
      intro fuel hf k n
      cases fuel with
      | zero => exact absurd hf (by simp)
      | succ f => rfl
  | node k0 c l r ihl ihr =>
      intro fuel hf k n
      cases fuel with
      | zero => exact (Nat.not_lt_zero _ hf).elim
      | succ f =>
          have hfl : height l < f := by
            simp only [height_node] at hf
            omega
          have hfr : height r < f := by
            simp only [height_node] at hf
            omega
          simp only [__rbtree_erase_fuel, __rbtree_erase]
          by_cases hlt : k < k0
          · rw [if_pos hlt, if_pos hlt, ihl f hfl]
          · rw [if_neg hlt, if_neg hlt]
            by_cases hgt : k > k0
            · rw [if_pos hgt, if_pos hgt, ihr f hfr]
            · rw [if_neg hgt, if_neg hgt]
              by_cases hnil : l = Tree.nil ∨ r = Tree.nil
              · rw [if_pos hnil, if_pos hnil]
              · rw [if_neg hnil, if_neg hnil, ihl f hfl]


lemma erase_absent_public (st : St) (k : Int) (h : TopValid st)
    (hmem : k ∉ inorder st.root) : rbtree_erase st k = st := by
  obtain ⟨rt, nc⟩ := st
  obtain ⟨hn, hv, hr, hs⟩ := h
  have hn1 : nc = 1 := hn
  subst hn1
  have habs := erase_absent rt k hmem hv.1
  simp only [rbtree_erase, habs]
  cases rt with
  | nil => rfl
  | node k2 c2 l2 r2 =>
      have hc2 : c2 = 1 := by
        obtain ⟨hd, -, -, -⟩ := hv
        rw [dblFree_node_iff] at hd
        rcases hd.1 with h0 | h0
        · rw [show redRoot (Tree.node k2 c2 l2 r2) = (c2 == 0) from rfl,
            h0] at hr
          exact absurd hr (by decide)
        · exact h0
      subst hc2
      rfl

/-! ## The claims -/

/-- Claim C1: every finite sequence of public insert/erase calls started
from the empty tree yields a tree whose root reads BLACK, with no
DOUBLE_BLACK marker left, no RED node with a RED child, equal BLACK
counts on the paths from every node down to the sentinel, and a strictly
increasing in-order key sequence. -/
theorem C1_invariant_preservation (ops : List Op) :
    (run ops).root.color (run ops).nilc = RBTREE_CLR_BLK ∧
    dblFree (run ops).root = true ∧
    invc (run ops).root = true ∧
    bhOk (run ops).root = true ∧
    (inorder (run ops).root).Pairwise (· < ·) := by
  obtain ⟨hn, hv, hr, hs⟩ := run_topValid ops
  obtain ⟨hd, hi, h4, hb⟩ := hv
  refine ⟨?_, hd, hi, hb, hs⟩
  cases hroot : (run ops).root with
  | nil => exact hn
  | node k2 c2 l2 r2 =>
      rw [hroot] at hd hr
      rw [dblFree_node_iff] at hd
      rcases hd.1 with h0 | h0
      · rw [show redRoot (Tree.node k2 c2 l2 r2) = (c2 == 0) from rfl,
          h0] at hr
        exact absurd hr (by decide)
      · exact h0

/-- Claim C2: inserting the keys of a list and then erasing the keys of
any list with the same underlying key set leaves the empty tree: the
root is the sentinel again. -/
theorem C2_round_trip (I D : List Int) (h : ∀ x, x ∈ I ↔ x ∈ D) :
    (run (I.map Op.ins ++ D.map Op.del)).root = .nil :=
  round_trip I D (fun x hx => (h x).mp hx)

/-- Witness for C2 at a concrete permuted key set. -/
theorem C2_round_trip_witness :
    (∀ x : Int, x ∈ [1, 2, 3] ↔ x ∈ [3, 1, 2]) ∧
    (run ([1, 2, 3].map Op.ins ++ [3, 1, 2].map Op.del)).root = .nil := by
  have hset : ∀ x : Int, x ∈ [1, 2, 3] ↔ x ∈ [3, 1, 2] := by
    intro x
    simp only [List.mem_cons, List.not_mem_nil, or_false]
    tauto
  exact ⟨hset, C2_round_trip [1, 2, 3] [3, 1, 2] hset⟩

/-- Claim C3: inserting a key already present in any reachable tree is an
exact no-op: the returned state (tree and sentinel) is the previous one. -/
theorem C3_insert_present_noop (ops : List Op) (k : Int)
    (hmem : k ∈ inorder (run ops).root) :
    rbtree_insert (run ops) k = run ops :=
  insert_present_public (run ops) k (run_topValid ops) hmem

/-- Witness for C3: re-inserting 5 after inserting 5. -/
theorem C3_insert_present_noop_witness :
    5 ∈ inorder (run [Op.ins 5]).root ∧
    rbtree_insert (run [Op.ins 5]) 5 = run [Op.ins 5] :=
  ⟨by decide, C3_insert_present_noop [Op.ins 5] 5 (by decide)⟩

/-- Claim C4: erasing a key absent from any reachable tree is an exact
no-op: the returned state (tree and sentinel) is the previous one. -/
theorem C4_erase_absent_noop (ops : List Op) (k : Int)
    (hmem : k ∉ inorder (run ops).root) :
    rbtree_erase (run ops) k = run ops :=
  erase_absent_public (run ops) k (run_topValid ops) hmem

/-- Witness for C4: erasing the absent key 7 from the tree holding 5. -/
theorem C4_erase_absent_noop_witness :
    (7 ∉ inorder (run [Op.ins 5]).root) ∧
    rbtree_erase (run [Op.ins 5]) 7 = run [Op.ins 5] :=
  ⟨by decide, C4_erase_absent_noop [Op.ins 5] 7 (by decide)⟩

/-- Claim C5, refuted (code bug in rbtree_search of red_black_tree.cpp):
on the tree holding exactly key 5 — reachable by one public insert —
searching the absent key 0 returns a handle (the sentinel, whose
zero-initialized key field reads 0) instead of the null not-present
answer. -/
theorem C5_search_zero_bug :
    rbtree_insert ⟨.nil, RBTREE_CLR_BLK⟩ 5 =
      ⟨.node 5 RBTREE_CLR_BLK .nil .nil, RBTREE_CLR_BLK⟩ ∧
    (0 : Int) ∉ inorder (Tree.node 5 RBTREE_CLR_BLK .nil .nil) ∧
    RBIter.rbtree_search (.node 5 RBTREE_CLR_BLK .nil .nil) 0 =
      some .nil :=
  ⟨rfl, by decide, by decide⟩

/-- Claim C6: erase at a node holding the searched key with two real
children rewrites the node's key to the in-order predecessor's key (the
rightmost key of the left subtree: the last of its in-order sequence,
held by a node with no real right child), keeps the node's color and
right subtree, and recursively erases the predecessor's key from the
left subtree. -/
theorem C6_degree2_predecessor (k c : Int) (l r : Tree) (n : Int)
    (hl : l ≠ .nil) (hr : r ≠ .nil) :
    __rbtree_erase (.node k c l r) k n =
      __rbtree_erase_maintain
        (.node (__rbtree_find_predecessor (.node k c l r)).key c
          (__rbtree_erase l
            (__rbtree_find_predecessor (.node k c l r)).key n).1 r)
        (__rbtree_erase l
          (__rbtree_find_predecessor (.node k c l r)).key n).2 ∧
    (∃ A, inorder l =
      A ++ [(__rbtree_find_predecessor (.node k c l r)).key]) ∧
    (__rbtree_find_predecessor (.node k c l r)).right = .nil := by
  obtain ⟨A, hA, h2⟩ := predGo_last l hl
  exact ⟨erase_deg2_eq k c l r n hl hr, ⟨A, hA⟩, h2⟩

/-- Witness for C6 on the three-node tree rooted at 2. -/
theorem C6_degree2_predecessor_witness :
    (Tree.node 1 0 .nil .nil ≠ Tree.nil) ∧
    (Tree.node 3 0 .nil .nil ≠ Tree.nil) ∧
    (__rbtree_erase
        (.node 2 1 (.node 1 0 .nil .nil) (.node 3 0 .nil .nil)) 2 1 =
      __rbtree_erase_maintain
        (.node (__rbtree_find_predecessor
            (.node 2 1 (.node 1 0 .nil .nil) (.node 3 0 .nil .nil))).key 1
          (__rbtree_erase (.node 1 0 .nil .nil)
            (__rbtree_find_predecessor
              (.node 2 1 (.node 1 0 .nil .nil)
                (.node 3 0 .nil .nil))).key 1).1
          (.node 3 0 .nil .nil))
        (__rbtree_erase (.node 1 0 .nil .nil)
          (__rbtree_find_predecessor
            (.node 2 1 (.node 1 0 .nil .nil)
              (.node 3 0 .nil .nil))).key 1).2 ∧
    (∃ A, inorder (Tree.node 1 0 Tree.nil Tree.nil) =
      A ++ [(__rbtree_find_predecessor
        (.node 2 1 (.node 1 0 .nil .nil) (.node 3 0 .nil .nil))).key]) ∧
    (__rbtree_find_predecessor
      (.node 2 1 (.node 1 0 .nil .nil) (.node 3 0 .nil .nil))).right =
      .nil) :=
  ⟨by decide, by decide,
    C6_degree2_predecessor 2 1 (.node 1 0 .nil .nil)
      (.node 3 0 .nil .nil) 1 (by decide) (by decide)⟩

/-- Claim C7: every erase activation terminates — the recursion depth of
__rbtree_erase (descent plus nested predecessor erase) is bounded by the
tree height, and on every rebalancing input arising during an erase (one
double black child, valid sibling, matching black counts) the
rebalancer's own recursion (case A rotating a RED sibling up, then one
black-sibling case) completes and restores the sentinel to BLACK. -/
theorem C7_termination :
    (∀ (t : Tree) (fuel : Nat), height t < fuel → ∀ (k n : Int),
      __rbtree_erase_fuel fuel t k n = some (__rbtree_erase t k n)) ∧
    (∀ (k c : Int) (l r : Tree) (n : Int), (c = 0 ∨ c = 1) →
      dblChild l n → validTree r → cbh l = bH r →
      (c = 0 → redRoot r = false) →
      (__rbtree_erase_maintain (.node k c l r) n).2 = 1) :=
  ⟨erase_fuel_spec, fun k c l r n hc hd hvr hb hcr =>
    (erase_maintain_spec_left k c l r n hc hd hvr hb hcr).1⟩

/-- Witness for C7: fuel two suffices for a height-one tree, and the
rebalancer resolves a double black sentinel child in one pass. -/
theorem C7_termination_witness :
    (height (Tree.node 1 1 .nil .nil) < 2 ∧
      __rbtree_erase_fuel 2 (.node 1 1 .nil .nil) 1 1 =
        some (__rbtree_erase (.node 1 1 .nil .nil) 1 1)) ∧
    (((1 : Int) = 0 ∨ (1 : Int) = 1) ∧ dblChild .nil 2 ∧
      validTree (Tree.node 3 1 .nil .nil) ∧
      cbh .nil = bH (Tree.node 3 1 .nil .nil) ∧
      ((1 : Int) = 0 → redRoot (Tree.node 3 1 .nil .nil) = false) ∧
      (__rbtree_erase_maintain
        (.node 2 1 .nil (.node 3 1 .nil .nil)) 2).2 = 1) :=
  ⟨⟨by decide, C7_termination.1 (.node 1 1 .nil .nil) 2 (by decide) 1 1⟩,
    Or.inr rfl, Or.inl ⟨rfl, rfl⟩, ⟨rfl, rfl, rfl, rfl⟩, by decide,
    fun h => absurd h (by decide),
    C7_termination.2 2 1 .nil (.node 3 1 .nil .nil) 2 (Or.inr rfl)
      (Or.inl ⟨rfl, rfl⟩) ⟨rfl, rfl, rfl, rfl⟩ (by decide)
      (fun h => absurd h (by decide))⟩

/-- Claim C8: every reachable tree with n keys has height at most
2·log₂(n+1), stated exactly over naturals as 2 ^ height ≤ (n+1)². -/
theorem C8_height_bound (ops : List Op) :
    2 ^ height (run ops).root ≤ (size (run ops).root + 1) ^ 2 := by
  obtain ⟨hn, hv, hr, hs⟩ := run_topValid ops
  exact height_bound (run ops).root hv hr

/-- Claim C9, refuted for the iterative variant (code bug in
rbtree_flip_color of red_black_tree.cpp): the recursive rebalancer's
flip branch recolors a node with two RED children RED with both children
BLACK, but rbtree_flip_color writes RED into the right child (the source
line sets right->color = RBTREE_NODE_CLR_RED), leaving it RED instead of
BLACK. -/
theorem C9_color_flip :
    (∀ (k c lk rk : Int) (ll lr rl rr : Tree) (n : Int),
      rbtree_insert_maintian
        (.node k c (.node lk RBTREE_CLR_RED ll lr)
          (.node rk RBTREE_CLR_RED rl rr)) n =
      (.node k RBTREE_CLR_RED (.node lk RBTREE_CLR_BLK ll lr)
        (.node rk RBTREE_CLR_BLK rl rr), n)) ∧
    (RBIter.rbtree_flip_color
      (.node 2 RBTREE_CLR_BLK (.node 1 RBTREE_CLR_RED .nil .nil)
        (.node 3 RBTREE_CLR_RED .nil .nil)) RBTREE_CLR_BLK).1 =
      .node 2 RBTREE_CLR_RED (.node 1 RBTREE_CLR_BLK .nil .nil)
        (.node 3 RBTREE_CLR_RED .nil .nil) := by
  constructor
  · intro k c lk rk ll lr rl rr n
    simp [rbtree_insert_maintian, has_red_child_node, recolorRBB]
  · rfl

/-- Claim C10 (amended): the shared sentinel reads BLACK before and after
every public operation; as stated over every point during a call the
claim fails, see the counterexample. -/
theorem C10_sentinel_black (ops : List Op) :
    (run ops).nilc = RBTREE_CLR_BLK :=
  (run_topValid ops).1

/-- Counterexample to C10 as stated: while erasing key 1 from the
reachable one-node tree, the splice step writes DOUBLE_BLACK into the
shared sentinel through the removed node's child pointer, so the
sentinel is mutated during the call (the public wrapper only repairs it
afterwards). -/
theorem C10_sentinel_mutated_counterexample :
    rbtree_insert ⟨.nil, RBTREE_CLR_BLK⟩ 1 =
      ⟨.node 1 RBTREE_CLR_BLK .nil .nil, RBTREE_CLR_BLK⟩ ∧
    (__rbtree_erase (.node 1 RBTREE_CLR_BLK .nil .nil) 1
      RBTREE_CLR_BLK).2 = RBTREE_CLR_DBL :=
  ⟨rfl, rfl⟩

end RBRec
